import Mathlib

/-!
# SpellCheck: a shallow embedding of `spellcheck.c` and `text.c`

Conventions of the embedding.

* A byte is a `Nat` (the value of the `char` read as `unsigned char`); an `int`
  that may be negative (`getchar`, `fscanf`) is an `Int`.
* A stored C string (a text line, a dictionary entry, a file name) is the list of
  its bytes before the terminating NUL.  Reading index `j` of a string of length
  `n` yields the byte for `j < n`, the terminator `0` for `j = n`, and is out of
  bounds for `j > n`.
* The `word` buffer of `main` is a list holding every allocated byte, because the
  program reuses it without terminating it.
* Bytes of a fresh heap block that the program never wrote read as `0`, except
  the bytes that follow a line copied by `readLines`, which are given by the
  parameter `junk`.  The uninitialised stack variable `ch` of
  `isValidDictionary` is the parameter `garbage`.
* An `int` capacity is a `Nat` of at most `INT_MAX`: a doubling beyond it is
  undefined behaviour.  `realloc` returns null for a request above `heapLimit`.
* Loops that may run forever take a `fuel` argument and return `none` when it is
  used up; reads and stores outside a block, a store through a null pointer and a
  second `free` of a block end the run with an `undefined` outcome.
-/

namespace SpellCheck

/-! ## C library: `<ctype.h>` in the "C" locale, `strcmp`, `strlen`, `bsearch` -/

/-- The byte list of a string literal. -/
def bytes (s : String) : List Nat := s.toList.map Char.toNat

def isupper (c : Nat) : Bool := decide (65 ≤ c) && decide (c ≤ 90)

def islower (c : Nat) : Bool := decide (97 ≤ c) && decide (c ≤ 122)

def isalpha (c : Nat) : Bool := isupper c || islower c

def isdigit (c : Nat) : Bool := decide (48 ≤ c) && decide (c ≤ 57)

/-- Space, and the controls `\t \n \v \f \r`. -/
def isspace (c : Nat) : Bool := c == 32 || (decide (9 ≤ c) && decide (c ≤ 13))

def tolower (c : Nat) : Nat := if isupper c then c + 32 else c

/-- The sign of the first differing byte of two strings (the C standard fixes
only the sign of the result of `strcmp`); at the end of the shorter string
the terminator `0` is compared with a byte of the longer one. -/
def strcmp : List Nat → List Nat → Int
  | [], [] => 0
  | [], _ :: _ => -1
  | _ :: _, [] => 1
  | a :: s, b :: t => if a < b then -1 else if b < a then 1 else strcmp s t

/-- Length of the C string held in a buffer: the bytes before the first NUL. -/
def strlen (buf : List Nat) : Nat := (buf.takeWhile (fun c => c != 0)).length

/-- The C string held in a buffer: the bytes before the first NUL. -/
def cstr (buf : List Nat) : List Nat := buf.takeWhile (fun c => c != 0)

/-- Read `s[j]` of a stored string: `none` when `j` is past the terminator. -/
def readChar (s : List Nat) (j : Nat) : Option Nat :=
  if j < s.length then s[j]? else if j = s.length then some 0 else none

/-- Read `lines[i][j]`: `none` when line `i` is not stored or `j` is past its
terminator. -/
def readAt (lines : List (List Nat)) (i j : Nat) : Option Nat :=
  match lines[i]? with
  | none => none
  | some s => readChar s j

/-- The loop of the C library's `bsearch` over `base[lo .. hi)`: probe the
middle element, continue left when the key compares smaller, right when it
compares greater.  The counter bounds the number of probes by the number of
items, which the halving never reaches. -/
def bsearchLoop {α β : Type} (key : α) (base : List β) (compar : α → β → Int) :
    Nat → Nat → Nat → Option β
  | 0, _, _ => none
  | fuel + 1, lo, hi =>
    if lo < hi then
      match base[(lo + hi) / 2]? with
      | none => none
      | some e =>
        if compar key e < 0 then bsearchLoop key base compar fuel lo ((lo + hi) / 2)
        else if 0 < compar key e then bsearchLoop key base compar fuel ((lo + hi) / 2 + 1) hi
        else some e
    else none

/-- The C library's `bsearch(key, base, nitems, size, compar)`: the element
found, or `none` for `NULL`. -/
def bsearch {α β : Type} (key : α) (base : List β) (nitems : Nat) (compar : α → β → Int) :
    Option β :=
  bsearchLoop key base compar nitems 0 nitems

/-! ## `spellcheck.c`: constants -/

def USER_QUIT : Nat := 1

/-- The value of `EXIT_FAILURE` of `<stdlib.h>` (1 on POSIX systems). -/
def EXIT_FAILURE : Nat := 1

def EXIT_SUCCESS : Nat := 0

/-- The constant `ESC`. -/
def ESC : Nat := 27

def colorRed : List Nat := [ESC, 91, 51, 49, 109]

def colorDefault : List Nat := [ESC, 91, 48, 109]

/-! ## `spellcheck.c`: `compareWords`, `sortWords`, `searchDictionary` -/

/-- The comparison `compareWords(a, b)`, which is `strcmp(*(char **)a, *(char **)b)`. -/
def compareWords (a b : List Nat) : Int := strcmp a b

/-- The function `sortWords`: `qsort` of the first `dictLineCount` entries with
`compareWords`.  Entries that compare equal are the same string, so the result
of any sorting algorithm is this one. -/
def sortWords (dictArray : List (List Nat)) (dictLineCount : Nat) : List (List Nat) :=
  (dictArray.take dictLineCount).insertionSort (fun a b => compareWords a b ≤ 0)
    ++ dictArray.drop dictLineCount

/-- The function `searchDictionary(word, dictArray, dictLineCount)`: the entry that `bsearch`
finds, or `none` for the null result. -/
def searchDictionary (word : List Nat) (dictArray : List (List Nat)) (dictLineCount : Nat) :
    Option (List Nat) :=
  bsearch word dictArray dictLineCount compareWords

/-! ## `spellcheck.c`: `isValidDictionary` -/

/-- How a call of `isValidDictionary` ends. -/
inductive Validation where
  /-- The call returns to its caller. -/
  | returned
  /-- The message `Invalid word, line: line-no<lineNo>` on stderr, then `exit(EXIT_FAILURE)`. -/
  | invalid (lineNo : Nat)
  /-- A byte outside the array was read. -/
  | undefined
  deriving DecidableEq, Repr

/-- The `while (ch != '\0')` loop of `isValidDictionary` for line `i`, with the
current value of `ch`.  `j` is passed along as the source leaves it: it is never
incremented.  `some none` is a normal end of the loop, `some (some v)` ends the
call with `v`. -/
def validateLine (dictionary : List (List Nat)) (i j : Nat) :
    Nat → Nat → Option (Option Validation)
  | 0, _ => none
  | fuel + 1, ch =>
    if ch != 0 then
      match readAt dictionary i j with
      | none => some (some Validation.undefined)
      | some c =>
        if isspace c then some (some (Validation.invalid (i + 1)))
        else if isupper c then some (some (Validation.invalid (i + 1)))
        else if !islower c then some (some (Validation.invalid (i + 1)))
        else validateLine dictionary i j fuel c
    else some none

/-- The `for (i = 0; i < lineCount; i++)` loop of `isValidDictionary`, with
`todo = lineCount - i` iterations left.  `garbage i` is the indeterminate value
that the uninitialised `ch` holds when iteration `i` starts. -/
def validateFrom (fuel : Nat) (garbage : Nat → Nat) (dictionary : List (List Nat)) :
    Nat → Nat → Option Validation
  | 0, _ => some Validation.returned
  | todo + 1, i =>
    match validateLine dictionary i 0 fuel (garbage i) with
    | none => none
    | some (some v) => some v
    | some none => validateFrom fuel garbage dictionary todo (i + 1)

/-- The function `isValidDictionary(dictionary, lineCount)`; `none` when the call is still
running after `fuel` evaluations of a loop condition. -/
def isValidDictionary (fuel : Nat) (garbage : Nat → Nat) (dictionary : List (List Nat))
    (lineCount : Nat) : Option Validation :=
  validateFrom fuel garbage dictionary lineCount 0

/-! ## Outcomes and the growable character buffer -/

/-- A result that may instead be undefined behaviour (a read outside an array). -/
inductive Res (α : Type) where
  | ok (a : α)
  | undefined
  deriving DecidableEq, Repr

/-- A block of `n` fresh heap bytes. -/
def malloc (n : Nat) : List Nat := List.replicate n 0

/-- The largest value of an `int` (32 bits). -/
def INT_MAX : Nat := 2147483647

/-- The call `realloc(buf, n)` with an allocator that grants at most `heapLimit`
bytes: the old bytes, then fresh ones; `none` for the null result. -/
def realloc (heapLimit : Nat) (buf : List Nat) (n : Nat) : Option (List Nat) :=
  if n ≤ heapLimit then some (buf.take n ++ malloc (n - buf.length)) else none

/-- The capacity after the doubling check `if ((len + 1) >= capacity) capacity *= 2`
on an `int` capacity: `none` when the doubling overflows. -/
def grow (len capacity : Nat) : Option Nat :=
  if len + 1 ≥ capacity then
    if capacity * 2 ≤ INT_MAX then some (capacity * 2) else none
  else some capacity

/-- The store `buf[idx] = c`: `none` when `idx` is outside the block. -/
def store (buf : List Nat) (idx c : Nat) : Option (List Nat) :=
  if idx < buf.length then some (buf.set idx c) else none

/-- The statements `if ((len + 1) >= capacity) { capacity *= 2; buf = realloc(buf,
capacity); } buf[len] = c;` that `readLine` and `main` share: the buffer and
the capacity afterwards.  The result of `realloc` is not checked: `none` when the
doubling overflows, when `realloc` returns null, or when the store is outside the
block. -/
def growStore (heapLimit : Nat) (buf : List Nat) (len capacity c : Nat) :
    Option (List Nat × Nat) :=
  match grow len capacity with
  | none => none
  | some capacity1 =>
    match (if len + 1 ≥ capacity then realloc heapLimit buf capacity1 else some buf) with
    | none => none
    | some buf1 => (store buf1 len c).map (fun b => (b, capacity1))

/-- The call `strcat(dst, src)`: the string in `dst` followed by `src`. -/
def strcat (dst src : List Nat) : List Nat := cstr dst ++ src

/-- The call `getchar()`: the next byte of standard input, `-1` (EOF) when there is none. -/
def getchar : List Nat → Int × List Nat
  | [] => (-1, [])
  | c :: rest => (c, rest)

/-! ## `text.c`: `readLine`, `readLines` -/

/-- The result of `fscanf(fp, "%d", &ch)`: `EOF`, `0` (no integer at the read
position) or `1` with the integer converted. -/
inductive Scanf where
  | eof
  | noMatch
  | matched (v : Int)
  deriving DecidableEq, Repr

/-- The value of a run of decimal digits. -/
def decimal (digits : List Nat) : Nat :=
  digits.foldl (fun acc d => acc * 10 + (d - 48)) 0

/-- The `int` stored for the decimal value `v`: the C library of the reference
platform converts the digits as a `long`, which saturates, and truncates the
result to the 32 bits of the `int`. -/
def toInt (v : Int) : Int :=
  ((if v > 9223372036854775807 then 9223372036854775807
    else if v < -9223372036854775808 then -9223372036854775808 else v)
    + 2147483648) % 4294967296 - 2147483648

/-- The C library's `fscanf(fp, "%d", &ch)` on the unread rest of the stream:
skip white space, read an optional sign and the decimal digits that follow.
Returns the result and the rest of the stream. -/
def fscanfInt (input : List Nat) : Scanf × List Nat :=
  match input.dropWhile isspace with
  | [] => (Scanf.eof, [])
  | c :: rest =>
    let body := if c = 45 ∨ c = 43 then rest else c :: rest
    let digits := body.takeWhile isdigit
    if digits.isEmpty then (Scanf.noMatch, body)
    else
      let v : Int := decimal digits
      (Scanf.matched (toInt (if c = 45 then -v else v)), body.dropWhile isdigit)

/-- The byte stored by `line[len++] = ch` for an `int ch`. -/
def toByte (v : Int) : Nat := (v % 256).toNat

/-- The `while (fscanf(fp, "%d", &ch) == 1)` loop of `readLine`.  Returns the
buffer (`none` for `NULL`) and the rest of the stream. -/
def readLineLoop (heapLimit : Nat) : Nat → List Nat → List Nat → Nat → Nat →
    Option (Res (Option (List Nat) × List Nat))
  | 0, _, _, _, _ => none
  | fuel + 1, input, line, len, capacity =>
    match fscanfInt input with
    | (Scanf.matched ch, rest) =>
      match growStore heapLimit line len capacity (toByte ch) with
      | none => some Res.undefined
      | some (line1, capacity1) =>
        if ch = 10 ∨ ch = -1 then
          match store line1 (len + 1 - 1) 0 with
          | none => some Res.undefined
          | some line2 => some (Res.ok (some line2, rest))
        else readLineLoop heapLimit fuel rest line1 (len + 1) capacity1
    | (_, rest) => some (Res.ok (none, rest))

/-- The function `readLine(fp)`: `len = 0`, `capacity = 5`, a fresh buffer, then the
loop, with an allocator that grants every request an `int` can express. -/
def readLine (fuel : Nat) (input : List Nat) : Option (Res (Option (List Nat) × List Nat)) :=
  readLineLoop INT_MAX fuel input (malloc 5) 0 5

/-- The `while ((line = readLine(txt)) != NULL)` loop of `readLines`: each line is
copied with `strncpy(list[*count], line, strlen(line))` into a fresh block of
`strlen(line) + 1` bytes.  The copy has no terminator: the string stored for
line `count` goes on with `junk count`, the bytes that memory holds after the
copy up to the first NUL.  Returns the list and `*count`; undefined when the
doubling of the `int` capacity of the list overflows. -/
def readLinesLoop (junk : Nat → List Nat) : Nat → List Nat → List (List Nat) → Nat → Nat →
    Option (Res (List (List Nat) × Nat))
  | 0, _, _, _, _ => none
  | fuel + 1, input, list, count, capacity =>
    match readLine fuel input with
    | none => none
    | some Res.undefined => some Res.undefined
    | some (Res.ok (none, _)) => some (Res.ok (list, count))
    | some (Res.ok (some line, rest)) =>
      if count ≥ capacity ∧ INT_MAX < capacity * 2 then some Res.undefined
      else
        readLinesLoop junk fuel rest (list.take count ++ [cstr line ++ cstr (junk count)])
          (count + 1) (if count ≥ capacity then capacity * 2 else capacity)

/-- The function `readLines(fileName, &count)` for a file with the given content (`none` when
`fopen` fails, after which `fscanf` is called on a null stream). -/
def readLines (fuel : Nat) (junk : Nat → List Nat) (content : Option (List Nat)) :
    Option (Res (List (List Nat) × Nat)) :=
  match content with
  | none => some Res.undefined
  | some input => readLinesLoop junk fuel input [] 0 5

/-! ## `spellcheck.c`: the scanning loop of `main` -/

/-- The variables of `main` that the scanning loop reads and writes, the two
standard streams, the size `heapLimit` above which `realloc` returns null, and
two logs that are not program variables: for each dictionary lookup the
`wordLen` bytes collected and the key passed to `searchDictionary`, and the
values of `response` read at the prompts. -/
structure Scan where
  txtArray : List (List Nat)
  dictArray : List (List Nat)
  dictLineCount : Nat
  word : List Nat
  wordLen : Nat
  capacity : Nat
  ch : Nat
  p : Nat
  stdin : List Nat
  stdout : List Nat
  lookups : List (List Nat × List Nat)
  heapLimit : Nat
  responses : List Int
  deriving DecidableEq, Repr

/-- How a part of the scanning loop ends. -/
inductive Flow where
  /-- Control reaches the end of the part. -/
  | next (st : Scan)
  /-- The statement `break` was executed. -/
  | leave (st : Scan)
  /-- The message `Discarding changes` on stderr, then `exit(USER_QUIT)`. -/
  | quit (st : Scan)
  /-- A byte or a line outside an array was read, or a store failed. -/
  | undefined
  deriving DecidableEq, Repr

/-- The text lines held by the state in which a part of the loop ends are `t`. -/
def Flow.Keeps (t : List (List Nat)) : Flow → Prop
  | Flow.next st => st.txtArray = t
  | Flow.leave st => st.txtArray = t
  | Flow.quit st => st.txtArray = t
  | Flow.undefined => True

/-- The statements `if ((wordLen + 1) >= capacity) { capacity *= 2; word =
realloc(word, capacity); } word[wordLen++] = ch;` shared by the collection loop
and the replacement loop; undefined when the doubling overflows, `realloc`
returns null or the store is outside the buffer. -/
def pushChar (st : Scan) : Res Scan :=
  match growStore st.heapLimit st.word st.wordLen st.capacity st.ch with
  | none => Res.undefined
  | some (word, capacity) =>
    Res.ok { st with capacity := capacity, word := word, wordLen := st.wordLen + 1 }

/-- The loop `while (!isalpha(ch)) { ch = dictArray[i][p]; p++; }`. -/
def skipLoop (i : Nat) : Nat → Scan → Option (Res Scan)
  | 0, _ => none
  | fuel + 1, st =>
    if !isalpha st.ch then
      match readAt st.dictArray i st.p with
      | none => some Res.undefined
      | some c => skipLoop i fuel { st with ch := c, p := st.p + 1 }
    else some (Res.ok st)

/-- The loop `while (isalpha(ch)) { ...; word[wordLen++] = ch; ch = dictArray[i][p]; p++; }`. -/
def collectLoop (i : Nat) : Nat → Scan → Option (Res Scan)
  | 0, _ => none
  | fuel + 1, st =>
    if isalpha st.ch then
      match pushChar st with
      | Res.undefined => some Res.undefined
      | Res.ok st1 =>
        match readAt st.dictArray i st.p with
        | none => some Res.undefined
        | some c => collectLoop i fuel { st1 with ch := c, p := st.p + 1 }
    else some (Res.ok st)

/-- The loop `for (int t = 0; word[t]; t++) word[t] = tolower(word[t]);` on the buffer:
the bytes before the first NUL are folded, the rest is kept.  `none` when the
buffer holds no NUL, so that the loop reads past its end. -/
def foldWord (word : List Nat) : Option (List Nat) :=
  if word.contains 0 then some ((cstr word).map tolower ++ word.drop (strlen word))
  else none

/-- The `for (k = 0; k < p - wordLen; k++) printf("%c", txtArray[i][k]);` loop:
the bytes printed, `none` when a read is outside the line. -/
def printBefore (txtArray : List (List Nat)) (i : Nat) : Nat → Nat → Option (List Nat)
  | 0, _ => some []
  | todo + 1, k =>
    match readAt txtArray i k with
    | none => none
    | some c => (printBefore txtArray i todo (k + 1)).map (fun out => c :: out)

/-- The loop `while ((c = getchar()) != '\n') putchar(c);`: the bytes echoed and the rest of
standard input; `none` when the input holds no newline, as `getchar` then returns
`EOF` for ever. -/
def echoLine : List Nat → Option (List Nat × List Nat)
  | [] => none
  | c :: rest =>
    if c != 10 then (echoLine rest).map (fun r => (c :: r.1, r.2))
    else some ([], rest)

/-- The number of pointer slots of the array that `readLines` obtains with
`malloc(capacity * sizeof(char *))` for its initial `capacity = 5`. -/
def listSlots : Nat := 5

/-- The byte count `dictLineCount + sizeof(char *)` that the add branch passes to
`realloc`. -/
def addReallocSize (dictLineCount sizeofCharPtr : Nat) : Nat :=
  dictLineCount + sizeofCharPtr

/-- The add branch: `realloc(dictArray, dictLineCount + sizeof(char *))`, then
`dictArray[dictLineCount]` becomes a copy of the string in `word` (`strncpy` of
`strlen(word)` bytes into a fresh block of `strlen(word) + 1` bytes), and
`dictLineCount` is incremented.  The array is not sorted again.  The size
requested, `addReallocSize`, is smaller than the array.  The allocator of the
reference platform leaves a block of `listSlots` slots as it is for such a
request, so that the entries are kept and the store lands in the block when
`dictLineCount < listSlots`; it cuts a larger block, and the store at index
`dictLineCount` is then outside the block it returns: undefined. -/
def addWord (st : Scan) : Res Scan :=
  if st.dictLineCount < listSlots then
    Res.ok { st with
      dictArray := st.dictArray.take st.dictLineCount ++ [cstr st.word]
      dictLineCount := st.dictLineCount + 1 }
  else Res.undefined

/-- The loop `while ((chNew = getchar()) != '\0') { ...; word[wordLen++] = ch; }` of the
replace branch, over the rest of standard input: the byte stored is `ch`, not the
byte read.  At the end of the input `getchar` returns `EOF`, which is not
`'\0'`, so the loop keeps storing. -/
def replaceLoop : Nat → List Nat → Scan → Option (Res Scan)
  | 0, _, _ => none
  | fuel + 1, [], st =>
    match pushChar st with
    | Res.undefined => some Res.undefined
    | Res.ok st1 => replaceLoop fuel [] st1
  | fuel + 1, chNew :: rest, st =>
    if chNew != 0 then
      match pushChar st with
      | Res.undefined => some Res.undefined
      | Res.ok st1 => replaceLoop fuel rest st1
    else some (Res.ok { st with stdin := rest })

/-- The replace branch: `getchar()` skips one byte, the loop runs, then
`word[wordLen++] = '\0'`.  No text line is written. -/
def replaceWord (fuel : Nat) (st : Scan) : Option (Res Scan) :=
  match replaceLoop fuel (getchar st.stdin).2 st with
  | none => none
  | some Res.undefined => some Res.undefined
  | some (Res.ok st1) =>
    match store st1.word st1.wordLen 0 with
    | none => some Res.undefined
    | some word => some (Res.ok { st1 with word := word, wordLen := st1.wordLen + 1 })

/-- The end of a branch of the prompt: the scan goes on after the `if`, or the
branch ran into undefined behaviour. -/
def branchEnd : Res Scan → Flow
  | Res.ok st => Flow.next st
  | Res.undefined => Flow.undefined

/-- The bytes that the code from the label `prompt:` prints before it reads the
command, given the previous line as printed, the bytes printed before the
word, the input echoed and the following line. -/
def promptText (i txtLineCount : Nat) (st : Scan)
    (previous before echoed following : List Nat) : List Nat :=
  previous ++ before ++ colorRed ++ cstr st.word ++ colorDefault
    ++ echoed ++ (if i + 1 ≤ txtLineCount then [10] ++ following ++ [10] else [])
    ++ [10] ++ following ++ bytes "\n(r)eplace, (a)dd, (n)ext or (q)uit: "

/-- The code from the label `prompt:` to the end of the `if` of a misspelled word
on line `i`: the context, the command read, its branch.  An unknown command
prints the notice and jumps back to the label. -/
def prompt (i txtLineCount : Nat) : Nat → Scan → Option Flow
  | 0, _ => none
  | fuel + 1, st =>
    match (if i ≥ 1 then st.txtArray[i - 1]?.map (fun s => [10] ++ s ++ [10]) else some []),
        printBefore st.txtArray i (st.p - st.wordLen) 0 with
    | some previous, some before =>
      match echoLine st.stdin with
      | none => none
      | some (echoed, rest) =>
        match st.txtArray[i + 1]? with
        | none => some Flow.undefined
        | some following =>
          let out := st.stdout ++ promptText i txtLineCount st previous before echoed following
          let response := (getchar rest).1
          let st1 := { st with
            stdin := (getchar rest).2, stdout := out, responses := st.responses ++ [response] }
          if response = 113 then some (Flow.quit st1)
          else if response = 110 then some (Flow.leave st1)
          else if response = 97 then some (branchEnd (addWord st1))
          else if response = 114 then (replaceWord fuel st1).map branchEnd
          else prompt i txtLineCount fuel { st1 with stdout := out ++ bytes "Unknown command\n" }
    | _, _ => some Flow.undefined

/-- The loop `for (int p = 0; p < lineLen; p++)` over line `i`, from the current
`p`: skip, collect, fold, look the word up, prompt when it is not found. -/
def lineLoop (i txtLineCount lineLen : Nat) : Nat → Scan → Option Flow
  | 0, _ => none
  | fuel + 1, st =>
    if st.p < lineLen then
      match readAt st.dictArray i st.p with
      | none => some Flow.undefined
      | some c =>
        match skipLoop i fuel { st with wordLen := 0, ch := c } with
        | none => none
        | some Res.undefined => some Flow.undefined
        | some (Res.ok st1) =>
          match collectLoop i fuel st1 with
          | none => none
          | some Res.undefined => some Flow.undefined
          | some (Res.ok st2) =>
            match foldWord st2.word with
            | none => some Flow.undefined
            | some folded =>
              let st3 := { st2 with
                word := folded
                lookups := st2.lookups ++ [(st2.word.take st2.wordLen, cstr folded)] }
              match searchDictionary (cstr folded) st3.dictArray st3.dictLineCount with
              | some _ => lineLoop i txtLineCount lineLen fuel { st3 with p := st3.p + 1 }
              | none =>
                match prompt i txtLineCount fuel st3 with
                | none => none
                | some (Flow.next st4) =>
                  lineLoop i txtLineCount lineLen fuel { st4 with p := st4.p + 1 }
                | some (Flow.leave st4) => some (Flow.next st4)
                | some (Flow.quit st4) => some (Flow.quit st4)
                | some Flow.undefined => some Flow.undefined
    else some (Flow.next st)

/-- The loop `for (int i = 0; i < txtLineCount; i++)` with `todo = txtLineCount - i`
iterations left: a fresh `word` of capacity 5, `lineLen = strlen(txtArray[i])`,
then the loop over the line. -/
def scanFrom (fuel txtLineCount : Nat) : Nat → Nat → Scan → Option Flow
  | 0, _, st => some (Flow.next st)
  | todo + 1, i, st =>
    match st.txtArray[i]? with
    | none => some Flow.undefined
    | some line =>
      match lineLoop i txtLineCount (strlen line) fuel
          { st with word := malloc 5, wordLen := 0, capacity := 5, p := 0 } with
      | none => none
      | some (Flow.next st1) => scanFrom fuel txtLineCount todo (i + 1) st1
      | some other => some other

/-- The state in which `main` enters the scanning loop, with an allocator that
grants every request an `int` can express. -/
def initScan (txtArray dictArray : List (List Nat)) (dictLineCount : Nat) (stdin : List Nat) :
    Scan :=
  { txtArray := txtArray, dictArray := dictArray, dictLineCount := dictLineCount,
    word := [], wordLen := 0, capacity := 0, ch := 0, p := 0,
    stdin := stdin, stdout := [], lookups := [], heapLimit := INT_MAX, responses := [] }

/-- The scanning loop of `main` (lines 102 to 206) over `txtLineCount` lines. -/
def scanLines (fuel : Nat) (txtArray : List (List Nat)) (txtLineCount : Nat)
    (dictArray : List (List Nat)) (dictLineCount : Nat) (stdin : List Nat) : Option Flow :=
  scanFrom fuel txtLineCount txtLineCount 0 (initScan txtArray dictArray dictLineCount stdin)

/-! ## `spellcheck.c`: `main` -/

/-- A file system: the named files and their contents. -/
abbrev Files := List (List Nat × List Nat)

/-- The content of the file `name`, `none` when there is no such file (`fopen`
for reading returns `NULL`). -/
def fileContent (fs : Files) (name : List Nat) : Option (List Nat) :=
  (fs.find? (fun f => f.1 == name)).map (fun f => f.2)

/-- The file system without the file `name`. -/
def removeFile (fs : Files) (name : List Nat) : Files :=
  fs.filter (fun f => !(f.1 == name))

/-- The file `name` created or overwritten with `content` (`fopen` for writing,
the writes, `fclose`). -/
def writeFile (fs : Files) (name content : List Nat) : Files :=
  removeFile fs name ++ [(name, content)]

/-- The call `rename(oldName, newName)`: fails, changing nothing, when there is no file
`oldName`; replaces a file `newName`. -/
def rename (fs : Files) (oldName newName : List Nat) : Files :=
  match fileContent fs oldName with
  | none => fs
  | some content =>
    if oldName = newName then fs else writeFile (removeFile fs oldName) newName content

/-- How a run of `main` ends. -/
inductive Status where
  /-- The statement `return EXIT_SUCCESS`. -/
  | success
  /-- The usage message on stderr, then `exit(EXIT_FAILURE)`. -/
  | usage
  /-- The message `Can't open file: <name>` on stderr, then `exit(EXIT_FAILURE)`. -/
  | cantOpen (name : List Nat)
  /-- The validation reports line `lineNo` and calls `exit(EXIT_FAILURE)`. -/
  | invalidWord (lineNo : Nat)
  /-- The quit branch: `Discarding changes` on stderr, then `exit(USER_QUIT)`. -/
  | userQuit
  /-- The text file was rewritten, then `freeLines` freed a block a second time:
  undefined behaviour (the C library of the reference platform aborts). -/
  | doubleFree
  /-- A byte or a line outside an array was read, or a store went outside a block. -/
  | undefined
  deriving DecidableEq, Repr

/-- The exit status of the process, `none` after undefined behaviour. -/
def exitCode : Status → Option Nat
  | Status.success => some EXIT_SUCCESS
  | Status.usage => some EXIT_FAILURE
  | Status.cantOpen _ => some EXIT_FAILURE
  | Status.invalidWord _ => some EXIT_FAILURE
  | Status.userQuit => some USER_QUIT
  | Status.doubleFree => none
  | Status.undefined => none

/-- What a run of `main` leaves behind; `responses` are the commands read at the
prompts of a run whose scan did not end in undefined behaviour. -/
structure Run where
  status : Status
  files : Files
  stdout : List Nat
  responses : List Int
  deriving DecidableEq, Repr

/-- The loop `for (int j = 0; j < txtLineCount; j++) fprintf(txtOut, "%s\n",
txtArray[j]);` with `todo = txtLineCount - j` iterations left, appending to the
bytes written so far.  Undefined when line `j` is not stored. -/
def writeLines (txtArray : List (List Nat)) : Nat → Nat → List Nat → Res (List Nat)
  | 0, _, written => Res.ok written
  | todo + 1, j, written =>
    match txtArray[j]? with
    | none => Res.undefined
    | some line => writeLines txtArray todo (j + 1) (written ++ line ++ [10])

/-- The name built for the backup: `strcat` of `".bak"` onto a fresh block of
`strlen(txtName) + 5` bytes, to which `txtName` was never copied. -/
def backupName (txtName : List Nat) : List Nat :=
  strcat (malloc (strlen txtName + 5)) (bytes ".bak")

/-- The slots of `lines` whose pointers `freeLines(lines, count)` passes to `free`,
in order: the loop frees `lines[0]` to `lines[count - 1]`, then `free(*lines)`
frees `lines[0]` once more.  The array itself is never freed. -/
def freedSlots (count : Nat) : List Nat := List.range count ++ [0]

/-- The function `freeLines(lines, count)`: undefined when a block is freed
twice, which happens as soon as `count` is at least 1.  For `count = 0` the slot
`lines[0]` was never written and reads as a null pointer, which `free`
ignores. -/
def freeLines (count : Nat) : Res Unit :=
  if (freedSlots count).Nodup then Res.ok () else Res.undefined

/-- The end of `main` after the scanning loop (lines 209 to 233): the messages,
the `rename` to the backup name, the text file rewritten from `txtArray`, then
`freeLines` on both arrays and `return EXIT_SUCCESS`. -/
def finish (fs : Files) (txtName : List Nat) (txtLineCount : Nat) (st : Scan) : Run :=
  let out := st.stdout ++ bytes "Spellcheck complete.\n"
    ++ bytes "Backing up " ++ txtName ++ bytes " to " ++ backupName txtName
    ++ bytes "Writing updated " ++ txtName ++ [10]
  let fs1 := rename fs txtName (backupName txtName)
  match writeLines st.txtArray txtLineCount 0 [] with
  | Res.undefined =>
    { status := Status.undefined, files := writeFile fs1 txtName [], stdout := out,
      responses := st.responses }
  | Res.ok written =>
    { status :=
        match freeLines txtLineCount, freeLines st.dictLineCount with
        | Res.ok _, Res.ok _ => Status.success
        | _, _ => Status.doubleFree
      files := writeFile fs1 txtName written, stdout := out, responses := st.responses }

/-- A run that ends before the scanning loop. -/
def early (status : Status) (fs : Files) : Run :=
  { status := status, files := fs, stdout := [], responses := [] }

/-- The body of `main` from the loading of the two files on: `readLines` twice,
`isValidDictionary(txtArray, dictLineCount)`, `sortWords`, the scanning loop and
the final backup and rewrite. -/
def mainLoaded (fuel : Nat) (garbage : Nat → Nat) (junk : Nat → List Nat) (fs : Files)
    (txtName dictName : List Nat) (stdin : List Nat) : Option Run :=
  match readLines fuel junk (fileContent fs txtName),
      readLines fuel junk (fileContent fs dictName) with
  | some (Res.ok (txtArray, txtLineCount)), some (Res.ok (dictArray, dictLineCount)) =>
    match isValidDictionary fuel garbage txtArray dictLineCount with
    | none => none
    | some Validation.undefined => some (early Status.undefined fs)
    | some (Validation.invalid lineNo) => some (early (Status.invalidWord lineNo) fs)
    | some Validation.returned =>
      match scanLines fuel txtArray txtLineCount (sortWords dictArray dictLineCount)
          dictLineCount stdin with
      | none => none
      | some Flow.undefined => some (early Status.undefined fs)
      | some (Flow.quit st) =>
        some { status := Status.userQuit, files := fs, stdout := st.stdout,
               responses := st.responses }
      | some (Flow.next st) => some (finish fs txtName txtLineCount st)
      | some (Flow.leave st) => some (finish fs txtName txtLineCount st)
  | some _, some _ => some (early Status.undefined fs)
  | _, _ => none

/-- The function `main(argc, argv)` with `argc = argv.length`, on a file system and a standard
input.  `garbage` is the indeterminate initial `ch` of `isValidDictionary`, `junk`
the bytes that follow the unterminated line copies of `readLines`; `none` when
the run is still going after `fuel` steps of a loop. -/
def main (fuel : Nat) (garbage : Nat → Nat) (junk : Nat → List Nat) (argv : List (List Nat))
    (fs : Files) (stdin : List Nat) : Option Run :=
  if argv.length < 2 ∨ argv.length > 3 then some (early Status.usage fs)
  else
    let txtName := argv.getD 1 []
    match fileContent fs txtName with
    | none => some (early (Status.cantOpen txtName) fs)
    | some _ =>
      let dictName := if argv.length = 3 then argv.getD 2 [] else bytes "words.txt"
      match fileContent fs dictName with
      | none => some (early (Status.cantOpen dictName) fs)
      | some _ => mainLoaded fuel garbage junk fs txtName dictName stdin

/-! ## The specification's notions, for comparison with the code -/

/-- The maximal runs of alphabetic bytes of a line, left to right, as the
specification's tokenizer defines the words of a line; `run` is the run being
collected, in reverse. -/
def alphaRunsFrom : List Nat → List Nat → List (List Nat)
  | [], run => if run.isEmpty then [] else [run.reverse]
  | c :: rest, run =>
    if isalpha c then alphaRunsFrom rest (c :: run)
    else if run.isEmpty then alphaRunsFrom rest []
    else run.reverse :: alphaRunsFrom rest []

/-- The words of a line according to the specification. -/
def alphaRuns (line : List Nat) : List (List Nat) := alphaRunsFrom line []

/-- The line the specification requires after a replacement of the span
`[start, stop)` by `text`: `original[0:start] + text + original[stop:]`. -/
def splice (original : List Nat) (start stop : Nat) (text : List Nat) : List Nat :=
  original.take start ++ text ++ original.drop stop

/-- The lines of a file content according to the specification: split on line
terminators and on end-of-file, the terminator excluded; `line` is the line being
collected, in reverse. -/
def splitLinesFrom : List Nat → List Nat → List (List Nat)
  | [], line => if line.isEmpty then [] else [line.reverse]
  | c :: rest, line =>
    if c = 10 then line.reverse :: splitLinesFrom rest []
    else splitLinesFrom rest (c :: line)

/-- The lines of a file content according to the specification. -/
def splitLines (content : List Nat) : List (List Nat) := splitLinesFrom content []

/-! ## Invariants of the scanning loop -/

/-- The invariant of the growable `word` buffer: the buffer holds `capacity` bytes
and `wordLen + 1 <= capacity`. -/
def WordInv (st : Scan) : Prop :=
  st.word.length = st.capacity ∧ st.wordLen + 1 ≤ st.capacity

/-- The state of the `word` buffer between two words: the buffer holds `capacity`
bytes and `capacity` is at least 1. -/
def BufOk (st : Scan) : Prop :=
  st.word.length = st.capacity ∧ 1 ≤ st.capacity

/-- The doubling check of a full buffer fails: `len + 1 = capacity` and the doubled
capacity overflows the `int` or exceeds what `realloc` grants. -/
def GrowthFails (heapLimit len capacity : Nat) : Prop :=
  len + 1 = capacity ∧ (INT_MAX < capacity * 2 ∨ heapLimit < capacity * 2)

/-- The state in which a part of the loop ends satisfies `P`. -/
def Flow.Holds (P : Scan → Prop) : Flow → Prop
  | Flow.next st => P st
  | Flow.leave st => P st
  | Flow.quit st => P st
  | Flow.undefined => True

theorem strcmp_self (a : List Nat) : strcmp a a = 0 := by
  induction a with
  | nil => rfl
  | cons x s ih => simp [strcmp, ih]

theorem strcmp_eq_zero {a b : List Nat} (h : strcmp a b = 0) : a = b := by
  induction a generalizing b with
  | nil => cases b with
    | nil => rfl
    | cons y t => simp [strcmp] at h
  | cons x s ih => cases b with
    | nil => simp [strcmp] at h
    | cons y t =>
      simp only [strcmp] at h
      split_ifs at h with h1 h2
      · exact absurd h (by decide)
      · have hxy : x = y := by omega
        rw [hxy, ih h]

theorem strcmp_swap (a b : List Nat) : strcmp b a = - strcmp a b := by
  induction a generalizing b with
  | nil => cases b <;> simp [strcmp]
  | cons x s ih => cases b with
    | nil => simp [strcmp]
    | cons y t =>
      simp only [strcmp]
      split_ifs <;> first | omega | simp | exact ih t

theorem strcmp_neg_trans {a b c : List Nat} (h1 : strcmp a b < 0) (h2 : strcmp b c ≤ 0) :
    strcmp a c < 0 := by
  induction a generalizing b c with
  | nil => cases c with
    | nil => cases b <;> simp [strcmp] at h1 h2
    | cons z u => simp [strcmp]
  | cons x s ih => cases b with
    | nil => simp [strcmp] at h1
    | cons y t => cases c with
      | nil => simp [strcmp] at h2
      | cons z u =>
        simp only [strcmp] at h1 h2 ⊢
        split_ifs at h1 h2 ⊢ <;> first | omega | exact ih h1 h2

theorem strcmp_nonpos_trans {a b c : List Nat} (h1 : strcmp a b ≤ 0) (h2 : strcmp b c < 0) :
    strcmp a c < 0 := by
  induction a generalizing b c with
  | nil => cases c with
    | nil => cases b <;> simp [strcmp] at h1 h2
    | cons z u => simp [strcmp]
  | cons x s ih => cases b with
    | nil => simp [strcmp] at h1
    | cons y t => cases c with
      | nil => simp [strcmp] at h2
      | cons z u =>
        simp only [strcmp] at h1 h2 ⊢
        split_ifs at h1 h2 ⊢ <;> first | omega | exact ih h1 h2

/-! ## Binary search -/

theorem bsearchLoop_none_iff (key : List Nat) (base : List (List Nat)) (n : Nat)
    (hn : n ≤ base.length)
    (hs : ∀ i j a b, i < j → j < n → base[i]? = some a → base[j]? = some b → strcmp a b ≤ 0) :
    ∀ fuel lo hi, hi ≤ n → hi - lo ≤ fuel →
      (∀ k e, k < lo → base[k]? = some e → 0 < strcmp key e) →
      (∀ k e, hi ≤ k → k < n → base[k]? = some e → strcmp key e < 0) →
      (bsearchLoop key base compareWords fuel lo hi ≠ none ↔ ∃ k, k < n ∧ base[k]? = some key) := by
  have absent : ∀ lo hi, hi ≤ lo →
      (∀ k e, k < lo → base[k]? = some e → 0 < strcmp key e) →
      (∀ k e, hi ≤ k → k < n → base[k]? = some e → strcmp key e < 0) →
      ¬ ∃ k, k < n ∧ base[k]? = some key := by
    intro lo hi hle hlo hhi ⟨k, hk, hke⟩
    have h0 := strcmp_self key
    by_cases hkl : k < lo
    · have := hlo k key hkl hke; omega
    · have := hhi k key (by omega) hk hke; omega
  intro fuel
  induction fuel with
  | zero =>
    intro lo hi _ hf hlo hhi
    simp only [bsearchLoop, ne_eq, not_true_eq_false, false_iff]
    exact absent lo hi (by omega) hlo hhi
  | succ fuel ih =>
    intro lo hi hhn hf hlo hhi
    unfold bsearchLoop
    by_cases hlt : lo < hi
    · have hmid : (lo + hi) / 2 < base.length := by omega
      have hm1 : lo ≤ (lo + hi) / 2 := by omega
      have hm2 : (lo + hi) / 2 < hi := by omega
      obtain ⟨e, he⟩ : ∃ e, base[(lo + hi) / 2]? = some e :=
        ⟨base[(lo + hi) / 2], List.getElem?_eq_getElem hmid⟩
      simp only [hlt, if_true, he, compareWords]
      by_cases hc1 : strcmp key e < 0
      · simp only [hc1, if_true]
        apply ih lo ((lo + hi) / 2) (by omega) (by omega) hlo
        intro k e2 hk1 hk2 hke
        by_cases hkm : k = (lo + hi) / 2
        · subst hkm; rw [he] at hke; cases hke; exact hc1
        · exact strcmp_neg_trans hc1 (hs _ k e e2 (by omega) hk2 he hke)
      · simp only [hc1, if_false]
        by_cases hc2 : 0 < strcmp key e
        · simp only [hc2, if_true]
          apply ih ((lo + hi) / 2 + 1) hi hhn (by omega) _ hhi
          intro k e2 hk1 hke
          have hsw := strcmp_swap key e
          have hsw2 := strcmp_swap key e2
          by_cases hkm : k = (lo + hi) / 2
          · subst hkm; rw [he] at hke; cases hke; exact hc2
          · have := strcmp_nonpos_trans (hs k _ e2 e (by omega) (by omega) hke he)
              (show strcmp e key < 0 by omega)
            omega
        · simp only [hc2, if_false]
          have hek : key = e := strcmp_eq_zero (by omega)
          subst hek
          simp only [ne_eq, reduceCtorEq, not_false_eq_true, true_iff]
          exact ⟨_, by omega, he⟩
    · simp only [hlt, if_false, ne_eq, not_true_eq_false, false_iff]
      exact absent lo hi (by omega) hlo hhi

/-- C2: on a dictionary array whose first `n` entries are sorted ascending by byte
comparison, `searchDictionary(w, dict, n)` returns a non-null result if and only
if `w` is equal to one of the `n` entries. -/
theorem searchDictionary_found_iff_mem (dictArray : List (List Nat)) (n : Nat) (w : List Nat)
    (hn : n ≤ dictArray.length)
    (hsorted : (dictArray.take n).Pairwise (fun a b => compareWords a b ≤ 0)) :
    searchDictionary w dictArray n ≠ none ↔ w ∈ dictArray.take n := by
  have hs : ∀ i j a b, i < j → j < n → dictArray[i]? = some a → dictArray[j]? = some b →
      strcmp a b ≤ 0 := by
    intro i j a b hij hj ha hb
    rw [List.pairwise_iff_getElem] at hsorted
    have hlen : (dictArray.take n).length = n := by simp [hn]
    have := hsorted i j (by omega) (by omega) hij
    simp only [List.getElem_take, compareWords] at this
    have hi' : i < dictArray.length := by omega
    have hj' : j < dictArray.length := by omega
    rw [List.getElem?_eq_getElem hi'] at ha
    rw [List.getElem?_eq_getElem hj'] at hb
    cases ha; cases hb; exact this
  have key := bsearchLoop_none_iff w dictArray n hn hs n 0 n (le_refl _) (by omega)
    (by intro k e hk; omega) (by intro k e h1 h2; omega)
  unfold searchDictionary bsearch
  rw [key, List.mem_iff_getElem?]
  constructor
  · rintro ⟨k, hk, hke⟩
    exact ⟨k, by rw [List.getElem?_take, if_pos hk]; exact hke⟩
  · rintro ⟨k, hke⟩
    by_cases hk : k < n
    · rw [List.getElem?_take, if_pos hk] at hke; exact ⟨k, hk, hke⟩
    · rw [List.getElem?_take, if_neg hk] at hke; cases hke

theorem searchDictionary_found_iff_mem_witness :
    searchDictionary [99] [[98], [99], [100]] 3 ≠ none ↔ [99] ∈ List.take 3 [[98], [99], [100]] :=
  searchDictionary_found_iff_mem [[98], [99], [100]] 3 [99] (by decide) (by decide)

/-! ## `isValidDictionary` -/

theorem validateLine_lowercase_first (dictionary : List (List Nat)) (i c : Nat)
    (hread : readAt dictionary i 0 = some c) (hc : islower c = true) :
    ∀ fuel ch, ch ≠ 0 → validateLine dictionary i 0 fuel ch = none := by
  have hc0 : c ≠ 0 := by
    intro h; subst h; simp [islower] at hc
  have hsp : isspace c = false := by
    simp only [islower, Bool.and_eq_true, decide_eq_true_eq] at hc
    simp only [isspace, Bool.or_eq_false_iff, beq_eq_false_iff_ne, ne_eq, Bool.and_eq_false_iff,
      decide_eq_false_iff_not]
    omega
  have hup : isupper c = false := by
    simp only [islower, Bool.and_eq_true, decide_eq_true_eq] at hc
    simp only [isupper, Bool.and_eq_false_iff, decide_eq_false_iff_not]
    omega
  intro fuel
  induction fuel with
  | zero => intro ch _; rfl
  | succ fuel ih =>
    intro ch hch
    unfold validateLine
    simp [hch, hread, hsp, hup, hc, ih c hc0]

/-- C1: whatever value the uninitialised `ch` holds, `isValidDictionary` breaks
the contract on a one-entry dictionary: either it never returns on the entry
`a`, which consists of lowercase letters only, or it returns normally on the
entry `A` without reporting line 1. -/
theorem isValidDictionary_contract_broken (garbage : Nat → Nat) :
    (∀ fuel, isValidDictionary fuel garbage [[97]] 1 = none) ∨
    (∀ fuel, isValidDictionary (fuel + 1) garbage [[65]] 1 = some Validation.returned) := by
  by_cases h : garbage 0 = 0
  · right
    intro fuel
    simp [isValidDictionary, validateFrom, validateLine, h]
  · left
    intro fuel
    have := validateLine_lowercase_first [[97]] 0 97 rfl rfl fuel (garbage 0) h
    simp [isValidDictionary, validateFrom, this]

/-! ## The scanning loop on concrete sessions -/

/-- C3: the add branch appends without sorting again, so the lookup that follows
can fail.  With the sorted valid dictionary `b`, `c`, `d` the word `bb` is
prompted and added with `a`; the dictionary is then `b`, `c`, `d`, `bb`, and
`searchDictionary` does not find `bb` in it. -/
theorem add_then_lookup_fails :
    ∃ st, scanLines 50 [bytes "xx", []] 2 [bytes "b", bytes "c", bytes "d"] 3 (bytes "\na")
        = some (Flow.next st) ∧
      st.lookups = [(bytes "bb", bytes "bb")] ∧
      st.dictArray = [bytes "b", bytes "c", bytes "d", bytes "bb"] ∧
      st.dictLineCount = 4 ∧
      searchDictionary (bytes "bb") st.dictArray st.dictLineCount = none :=
  ⟨_, rfl, rfl, rfl, rfl, rfl⟩

/-- C4: the words extracted for a text line are not its maximal alphabetic runs.
For the line ` ab cd`, with the same line as entry 0 of the dictionary, the loop
extracts `ab` and `dd`, not `ab` and `cd`; for the line `cd` with the dictionary
`ab` it extracts `aab`, read from the dictionary entry, not `cd`. -/
theorem scan_extracts_other_words :
    (∃ st, scanLines 50 [bytes " ab cd"] 1 [bytes " ab cd", bytes "ab", bytes "dd"] 3 []
        = some (Flow.next st) ∧
      st.lookups.map Prod.fst = [bytes "ab", bytes "dd"] ∧
      alphaRuns (bytes " ab cd") = [bytes "ab", bytes "cd"]) ∧
    (∃ st, scanLines 50 [bytes "cd", []] 2 [bytes "ab"] 1 (bytes "\nn") = some (Flow.next st) ∧
      st.lookups.map Prod.fst = [bytes "aab"] ∧
      alphaRuns (bytes "cd") = [bytes "cd"]) :=
  ⟨⟨_, rfl, rfl, rfl⟩, ⟨_, rfl, rfl, rfl⟩⟩

/-- C5: the replace branch leaves the stored line as it was.  For the line `oops`
with the misspelled word in the span 0 to 4 and the replacement `oups`, the run
completes, the stored line is still `oops` and that is what is written, while
the specified line is `oups`. -/
theorem replace_leaves_line :
    ∃ st, scanLines 50 [bytes "oops", []] 2 [bytes "ops"] 1 (bytes "\nr oups" ++ [0])
        = some (Flow.next st) ∧
      st.lookups = [(bytes "oops", bytes "oops")] ∧
      st.txtArray = [bytes "oops", []] ∧
      writeLines st.txtArray 2 0 [] = Res.ok (bytes "oops\n\n") ∧
      splice (bytes "oops") 0 4 (bytes "oups") = bytes "oups" :=
  ⟨_, rfl, rfl, rfl, rfl, rfl⟩

/-- C6: a prompt answered with `n` ends the scan of the line.  On the line ` ab cd`
the word `ab` is prompted; when `n` is read the run completes after that one
lookup, with the input `\nq` of a second prompt still unread, while with `a` in
the place of `n` a second word of the line is looked up and prompted. -/
theorem next_skips_rest_of_line :
    (∃ st, scanLines 50 [bytes " ab cd", []] 2 [bytes " ab cd"] 1 (bytes "\nn\nq")
        = some (Flow.next st) ∧
      st.lookups = [(bytes "ab", bytes "ab")] ∧
      st.stdin = bytes "\nq" ∧
      st.txtArray = [bytes " ab cd", []] ∧
      alphaRuns (bytes " ab cd") = [bytes "ab", bytes "cd"]) ∧
    (∃ st, scanLines 50 [bytes " ab cd", []] 2 [bytes " ab cd"] 1 (bytes "\na\nq")
        = some (Flow.quit st) ∧
      st.lookups.length = 2) :=
  ⟨⟨_, rfl, rfl, rfl, rfl, rfl⟩, ⟨_, rfl, rfl⟩⟩

/-! ## The scanning loop never writes a text line -/

theorem map_some_inv {α β : Type} {f : α → β} {x : Option α} {b : β}
    (h : x.map f = some b) : ∃ a, x = some a ∧ f a = b := by
  cases x with
  | none => cases h
  | some a => exact ⟨a, rfl, by simpa using h⟩

theorem pushChar_eq (st st1 : Scan) (h : pushChar st = Res.ok st1) :
    ∃ word capacity,
      growStore st.heapLimit st.word st.wordLen st.capacity st.ch = some (word, capacity) ∧
      st1 = { st with capacity := capacity, word := word, wordLen := st.wordLen + 1 } := by
  unfold pushChar at h
  split at h
  · cases h
  · rename_i word capacity hg
    cases h
    exact ⟨word, capacity, hg, rfl⟩

theorem skipLoop_keeps (i : Nat) : ∀ fuel st st1,
    skipLoop i fuel st = some (Res.ok st1) →
    st1.txtArray = st.txtArray ∧ st1.responses = st.responses := by
  intro fuel
  induction fuel with
  | zero => intro st st1 h; simp [skipLoop] at h
  | succ fuel ih =>
    intro st st1 h
    unfold skipLoop at h
    split at h
    · split at h
      · cases h
      · have := ih _ _ h
        exact this
    · cases h; exact ⟨rfl, rfl⟩

theorem collectLoop_keeps (i : Nat) : ∀ fuel st st1,
    collectLoop i fuel st = some (Res.ok st1) →
    st1.txtArray = st.txtArray ∧ st1.responses = st.responses := by
  intro fuel
  induction fuel with
  | zero => intro st st1 h; simp [collectLoop] at h
  | succ fuel ih =>
    intro st st1 h
    unfold collectLoop at h
    split at h
    · split at h
      · cases h
      · rename_i st2 hp
        obtain ⟨word, capacity, _, rfl⟩ := pushChar_eq _ _ hp
        split at h
        · cases h
        · have := ih _ _ h
          exact this
    · cases h; exact ⟨rfl, rfl⟩

theorem replaceLoop_keeps : ∀ fuel input st st1,
    replaceLoop fuel input st = some (Res.ok st1) →
    st1.txtArray = st.txtArray ∧ st1.responses = st.responses := by
  intro fuel
  induction fuel with
  | zero => intro input st st1 h; simp [replaceLoop] at h
  | succ fuel ih =>
    intro input st st1 h
    cases input with
    | nil =>
      unfold replaceLoop at h
      split at h
      · cases h
      · rename_i st2 hp
        obtain ⟨word, capacity, _, rfl⟩ := pushChar_eq _ _ hp
        have := ih _ _ _ h
        exact this
    | cons c rest =>
      unfold replaceLoop at h
      split at h
      · split at h
        · cases h
        · rename_i st2 hp
          obtain ⟨word, capacity, _, rfl⟩ := pushChar_eq _ _ hp
          have := ih _ _ _ h
          exact this
      · cases h; exact ⟨rfl, rfl⟩

theorem replaceWord_keeps (fuel : Nat) (st st1 : Scan)
    (h : replaceWord fuel st = some (Res.ok st1)) :
    st1.txtArray = st.txtArray ∧ st1.responses = st.responses := by
  unfold replaceWord at h
  split at h
  · cases h
  · cases h
  · rename_i st2 hl
    split at h
    · cases h
    · cases h
      exact (replaceLoop_keeps _ _ _ st2 hl :)

theorem replaceBranch_keeps (fuel : Nat) (st : Scan) (flow : Flow)
    (h : (replaceWord fuel st).map branchEnd = some flow) :
    flow = Flow.undefined ∨
      ∃ st1, flow = Flow.next st1 ∧ st1.txtArray = st.txtArray ∧ st1.responses = st.responses := by
  obtain ⟨r, hr, rfl⟩ := map_some_inv h
  cases r with
  | undefined => exact Or.inl rfl
  | ok st1 => exact Or.inr ⟨st1, rfl, replaceWord_keeps _ _ _ hr⟩

theorem addBranch_keeps (st : Scan) :
    branchEnd (addWord st) = Flow.undefined ∨
      ∃ st1, branchEnd (addWord st) = Flow.next st1 ∧ st1.txtArray = st.txtArray ∧
        st1.responses = st.responses := by
  unfold addWord
  split
  · exact Or.inr ⟨_, rfl, rfl, rfl⟩
  · exact Or.inl rfl

theorem prompt_txtArray (i n : Nat) : ∀ fuel st flow,
    prompt i n fuel st = some flow → flow.Keeps st.txtArray := by
  intro fuel
  induction fuel with
  | zero => intro st flow h; simp [prompt] at h
  | succ fuel ih =>
    intro st flow h
    unfold prompt at h
    split at h
    · split at h
      · cases h
      · split at h
        · cases h; trivial
        · simp only at h
          split_ifs at h
          · cases h; rfl
          · cases h; rfl
          · cases h
            rcases addBranch_keeps _ with hu | ⟨st1, hs, ht, _⟩
            · rw [hu]; trivial
            · rw [hs]; exact ht
          · rcases replaceBranch_keeps _ _ _ h with hu | ⟨st1, hs, ht, _⟩
            · rw [hu]; trivial
            · rw [hs]; exact ht
          · exact (ih _ _ h :)
    · cases h; trivial

theorem lineLoop_txtArray (i n lineLen : Nat) : ∀ fuel st flow,
    lineLoop i n lineLen fuel st = some flow → flow.Keeps st.txtArray := by
  intro fuel
  induction fuel with
  | zero => intro st flow h; simp [lineLoop] at h
  | succ fuel ih =>
    intro st flow h
    unfold lineLoop at h
    split at h
    · split at h
      · cases h; trivial
      · split at h
        · cases h
        · cases h; trivial
        · rename_i st1 h1
          have e1 := (skipLoop_keeps _ _ _ _ h1).1
          split at h
          · cases h
          · cases h; trivial
          · rename_i st2 h2
            have e2 := (collectLoop_keeps _ _ _ _ h2).1
            split at h
            · cases h; trivial
            · simp only at h
              split at h
              · have := ih _ _ h
                simp only [e2, e1] at this
                exact this
              · split at h
                · cases h
                · rename_i st4 h4
                  have e4 := prompt_txtArray _ _ _ _ _ h4
                  have := ih _ _ h
                  simp only [Flow.Keeps] at e4
                  simp only [e4, e2, e1] at this
                  exact this
                · rename_i st4 h4
                  have e4 := prompt_txtArray _ _ _ _ _ h4
                  cases h
                  simp only [Flow.Keeps] at e4 ⊢
                  simp only [e4, e2, e1]
                · rename_i st4 h4
                  have e4 := prompt_txtArray _ _ _ _ _ h4
                  cases h
                  simp only [Flow.Keeps] at e4 ⊢
                  simp only [e4, e2, e1]
                · cases h; trivial
    · cases h; rfl

theorem scanFrom_txtArray (fuel n : Nat) : ∀ todo i st flow,
    scanFrom fuel n todo i st = some flow → flow.Keeps st.txtArray := by
  intro todo
  induction todo with
  | zero => intro i st flow h; simp only [scanFrom, Option.some.injEq] at h; subst h; rfl
  | succ todo ih =>
    intro i st flow h
    unfold scanFrom at h
    split at h
    · cases h; trivial
    · split at h
      · cases h
      · rename_i st1 h1
        have e1 := lineLoop_txtArray _ _ _ _ _ _ h1
        have := ih _ _ _ h
        simp only [Flow.Keeps] at e1
        simp only [e1] at this
        exact this
      · rename_i other hne h1
        cases h
        have := lineLoop_txtArray _ _ _ _ _ _ h1
        exact this

theorem scanLines_txtArray (fuel : Nat) (txtArray : List (List Nat)) (n : Nat)
    (dictArray : List (List Nat)) (m : Nat) (stdin : List Nat) (flow : Flow)
    (h : scanLines fuel txtArray n dictArray m stdin = some flow) : flow.Keeps txtArray :=
  scanFrom_txtArray fuel n n 0 _ flow h

/-! ## The command `q` ends the scan -/

theorem finish_responses (fs : Files) (txtName : List Nat) (n : Nat) (st : Scan) :
    (finish fs txtName n st).responses = st.responses := by
  unfold finish
  split <;> rfl

/-- C8: on the file content `hi` followed by a newline `readLines` returns no
line and the count 0, because `readLine` converts decimal integers with `%d`
instead of reading characters; the lines of that content are the one line `hi`. -/
theorem readLines_text_file_empty (fuel : Nat) (junk : Nat → List Nat) :
    readLines (fuel + 2) junk (some (bytes "hi\n")) = some (Res.ok ([], 0)) ∧
      splitLines (bytes "hi\n") = [bytes "hi"] :=
  ⟨rfl, rfl⟩

/-- A decimal value beyond the range of an `int` is stored truncated to 32 bits. -/
theorem fscanfInt_truncates :
    fscanfInt (bytes "4294967306 7") = (Scanf.matched 10, bytes " 7") ∧
      fscanfInt (bytes "-1") = (Scanf.matched (-1), []) := by
  constructor <;> decide

/-- The line copied by `readLines` goes on with the bytes that follow the copy. -/
theorem readLines_unterminated (fuel : Nat) (junk : Nat → List Nat) :
    readLines (fuel + 8) junk (some (bytes "104 105 10"))
      = some (Res.ok ([bytes "hi" ++ cstr (junk 0)], 1)) :=
  rfl

theorem writeLines_append (pre : List (List Nat)) :
    ∀ (post : List (List Nat)) (written : List Nat),
      writeLines (pre ++ post) post.length pre.length written
        = Res.ok (written ++ (post.map (fun line => line ++ [10])).flatten) := by
  intro post
  induction post generalizing pre with
  | nil => intro written; simp [writeLines]
  | cons line post ih =>
    intro written
    have hget : (pre ++ line :: post)[pre.length]? = some line := by
      rw [List.getElem?_append_right (le_refl _)]; simp
    have hnext := ih (pre ++ [line]) (written ++ line ++ [10])
    simp only [List.append_assoc, List.singleton_append, List.length_append, List.length_singleton]
      at hnext
    simp only [List.length_cons, writeLines, hget, hnext, List.map_cons, List.flatten_cons,
      List.append_assoc, List.singleton_append]

theorem writeLines_all (txtArray : List (List Nat)) :
    writeLines txtArray txtArray.length 0 []
      = Res.ok ((txtArray.map (fun line => line ++ [10])).flatten) := by
  have := writeLines_append [] txtArray []
  simpa using this

theorem find_removeFile (fs : Files) (name : List Nat) :
    (removeFile fs name).find? (fun f => f.1 == name) = none := by
  simp [removeFile, List.find?_eq_none, List.mem_filter]

theorem fileContent_writeFile (fs : Files) (name content : List Nat) :
    fileContent (writeFile fs name content) name = some content := by
  unfold writeFile fileContent
  simp [List.find?_append, find_removeFile]

theorem freeLines_eq (count : Nat) :
    freeLines count = if count = 0 then Res.ok () else Res.undefined := by
  unfold freeLines freedSlots
  cases count with
  | zero => rfl
  | succ k =>
    have : ¬ (List.range (k + 1) ++ [0]).Nodup := by
      intro h
      have hd := (List.nodup_append.mp h).2.2
      exact hd (List.mem_range.mpr (Nat.succ_pos k)) (List.mem_singleton.mpr rfl)
    simp [this]

theorem finish_content (fs : Files) (txtName : List Nat) (st : Scan) :
    fileContent (finish fs txtName st.txtArray.length st).files txtName
      = some ((st.txtArray.map (fun line => line ++ [10])).flatten) := by
  simp [finish, writeLines_all, fileContent_writeFile]

/-- C9: at the end of the scan over the `n` stored text lines the text file is
rewritten, and its content is then the concatenation, in index order, of each
stored line followed by one newline character.  After the write `freeLines`
frees the first line of an array twice unless both arrays are empty, so that
only a run without any line returns `EXIT_SUCCESS`. -/
theorem finish_writes_stored_lines (fs : Files) (txtName : List Nat) (st : Scan) :
    fileContent (finish fs txtName st.txtArray.length st).files txtName
        = some ((st.txtArray.map (fun line => line ++ [10])).flatten) ∧
      (finish fs txtName st.txtArray.length st).status
        = (if st.txtArray.length = 0 ∧ st.dictLineCount = 0 then Status.success
          else Status.doubleFree) := by
  constructor
  · exact finish_content fs txtName st
  · simp only [finish, writeLines_all, freeLines_eq]
    by_cases h1 : st.txtArray.length = 0 <;> by_cases h2 : st.dictLineCount = 0 <;>
      simp [h1, h2]

/-- C10: with the text file `hi` and a dictionary file that holds the word `hi`, no
word of the text is misspelled and the run completes without a prompt, but the
text file is rewritten empty: `readLines` loads no line from either file, and the
original content ends up in the file `.bak`. -/
theorem clean_text_rewritten_empty (fuel : Nat) (garbage : Nat → Nat) (junk : Nat → List Nat) :
    ∃ r, main (fuel + 2) garbage junk [bytes "spellcheck", bytes "t.txt"]
        [(bytes "t.txt", bytes "hi\n"), (bytes "words.txt", bytes "hi\n")] [] = some r ∧
      r.status = Status.success ∧
      r.stdout = bytes "Spellcheck complete.\nBacking up t.txt to .bakWriting updated t.txt\n" ∧
      fileContent r.files (bytes "t.txt") = some [] ∧
      fileContent r.files (bytes ".bak") = some (bytes "hi\n") :=
  ⟨_, rfl, rfl, rfl, rfl, rfl⟩

/-! ## More fuel never changes a result of `readLines` -/

theorem readLineLoop_mono (heapLimit : Nat) : ∀ fuel input line len capacity r,
    readLineLoop heapLimit fuel input line len capacity = some r →
    readLineLoop heapLimit (fuel + 1) input line len capacity = some r := by
  intro fuel
  induction fuel with
  | zero => intro input line len capacity r h; simp [readLineLoop] at h
  | succ fuel ih =>
    intro input line len capacity r h
    unfold readLineLoop at h ⊢
    split at h
    · split at h
      · exact h
      · split at h
        · rename_i hc
          rw [if_pos hc]
          exact h
        · rename_i hc
          rw [if_neg hc]
          exact ih _ _ _ _ _ h
    · exact h

theorem readLinesLoop_mono (junk : Nat → List Nat) : ∀ fuel input list count capacity r,
    readLinesLoop junk fuel input list count capacity = some r →
    readLinesLoop junk (fuel + 1) input list count capacity = some r := by
  intro fuel
  induction fuel with
  | zero => intro input list count capacity r h; simp [readLinesLoop] at h
  | succ fuel ih =>
    intro input list count capacity r h
    unfold readLinesLoop at h ⊢
    split at h
    · cases h
    · rename_i hl
      have hl1 := readLineLoop_mono _ _ _ _ _ _ _ hl
      simp only [readLine] at hl1 ⊢
      rw [hl1]
      exact h
    · rename_i rest hl
      have hl1 := readLineLoop_mono _ _ _ _ _ _ _ hl
      simp only [readLine] at hl1 ⊢
      rw [hl1]
      exact h
    · rename_i line rest hl
      have hl1 := readLineLoop_mono _ _ _ _ _ _ _ hl
      simp only [readLine] at hl1 ⊢
      rw [hl1]
      simp only
      split at h
      · rename_i hc
        rw [if_pos hc]
        exact h
      · rename_i hc
        rw [if_neg hc]
        exact ih _ _ _ _ _ h

theorem readLines_mono (junk : Nat → List Nat) (content : Option (List Nat))
    (r : Res (List (List Nat) × Nat)) :
    ∀ extra fuel, readLines fuel junk content = some r →
      readLines (fuel + extra) junk content = some r := by
  intro extra
  induction extra with
  | zero => intro fuel h; exact h
  | succ extra ih =>
    intro fuel h
    have h1 := ih fuel h
    cases content with
    | none => exact h
    | some input =>
      simp only [readLines] at h1 ⊢
      exact readLinesLoop_mono _ _ _ _ _ _ _ h1

/-- Whatever the fuel, `readLines` either has no result yet or has the result it
has with the fuel `enough`. -/
theorem readLines_eq_of_enough (junk : Nat → List Nat) (content : Option (List Nat))
    (enough : Nat) (r : Res (List (List Nat) × Nat))
    (h : readLines enough junk content = some r) (fuel : Nat) :
    readLines fuel junk content = none ∨ readLines fuel junk content = some r := by
  cases hf : readLines fuel junk content with
  | none => exact Or.inl rfl
  | some r1 =>
    right
    by_cases hle : fuel ≤ enough
    · have := readLines_mono junk content r1 (enough - fuel) fuel hf
      rw [show fuel + (enough - fuel) = enough by omega, h] at this
      exact this.symm
    · have := readLines_mono junk content r (fuel - enough) enough h
      rw [show enough + (fuel - enough) = fuel by omega, hf] at this
      exact this

/-- C11: `main` passes the text lines, not the dictionary, to `isValidDictionary`.
With the text lines `hi` and an empty line and the dictionary line `Fox`, the
run never exits citing line 1: whatever the uninitialised `ch` holds, it either
never leaves the validation of the text line `hi`, or skips validation, scans
the text and rewrites the text file.  In the first case the valid dictionary
`fox` is rejected citing line 1 because of the text line `Hi`. -/
theorem validation_checks_text_lines (garbage : Nat → Nat) :
    ((∀ fuel, main fuel garbage (fun _ => []) [bytes "spellcheck", bytes "t.txt", bytes "d.txt"]
        [(bytes "t.txt", bytes "104 105 10 10"), (bytes "d.txt", bytes "70 111 120 10")]
        (bytes "\nn") = none) ∧
      (∀ fuel, ∃ r, main (fuel + 8) garbage (fun _ => [])
        [bytes "spellcheck", bytes "t.txt", bytes "d.txt"]
        [(bytes "t.txt", bytes "72 105 10"), (bytes "d.txt", bytes "102 111 120 10")] []
          = some r ∧ r.status = Status.invalidWord 1)) ∨
    (∀ fuel, ∃ r, main (fuel + 8) garbage (fun _ => [])
        [bytes "spellcheck", bytes "t.txt", bytes "d.txt"]
        [(bytes "t.txt", bytes "104 105 10 10"), (bytes "d.txt", bytes "70 111 120 10")]
        (bytes "\nn") = some r ∧ r.status = Status.doubleFree ∧ r.responses = [110] ∧
      fileContent r.files (bytes "t.txt") = some (bytes "hi\n\n")) := by
  have benough : ∀ (content : List Nat) (r : Res (List (List Nat) × Nat)),
      readLines 8 (fun _ => []) (some content) = some r →
      ∀ fuel, readLines (fuel + 8) (fun _ => []) (some content) = some r := by
    intro content r h fuel
    rw [Nat.add_comm]
    exact readLines_mono _ _ _ fuel 8 h
  by_cases hg : garbage 0 = 0
  · right
    intro fuel
    have hmain : main (fuel + 8) garbage (fun _ => [])
        [bytes "spellcheck", bytes "t.txt", bytes "d.txt"]
        [(bytes "t.txt", bytes "104 105 10 10"), (bytes "d.txt", bytes "70 111 120 10")]
        (bytes "\nn") = mainLoaded (fuel + 8) garbage (fun _ => [])
        [(bytes "t.txt", bytes "104 105 10 10"), (bytes "d.txt", bytes "70 111 120 10")]
        (bytes "t.txt") (bytes "d.txt") (bytes "\nn") := rfl
    have ht : readLines (fuel + 8) (fun _ => []) (fileContent
        [(bytes "t.txt", bytes "104 105 10 10"), (bytes "d.txt", bytes "70 111 120 10")]
        (bytes "t.txt")) = some (Res.ok ([bytes "hi", []], 2)) :=
      benough (bytes "104 105 10 10") (Res.ok ([bytes "hi", []], 2)) rfl fuel
    have hd : readLines (fuel + 8) (fun _ => []) (fileContent
        [(bytes "t.txt", bytes "104 105 10 10"), (bytes "d.txt", bytes "70 111 120 10")]
        (bytes "d.txt")) = some (Res.ok ([bytes "Fox"], 1)) :=
      benough (bytes "70 111 120 10") (Res.ok ([bytes "Fox"], 1)) rfl fuel
    have hv : isValidDictionary (fuel + 8) garbage [bytes "hi", []] 1
        = some Validation.returned := by
      simp [isValidDictionary, validateFrom, validateLine, hg]
    have hs : ∃ st, scanLines (fuel + 8) [bytes "hi", []] 2 (sortWords [bytes "Fox"] 1) 1
        (bytes "\nn") = some (Flow.next st) ∧ st.txtArray = [bytes "hi", []] ∧
        st.dictLineCount = 1 ∧ st.responses = [110] := ⟨_, rfl, rfl, rfl, rfl⟩
    obtain ⟨st, hs1, hs2, hs3, hs4⟩ := hs
    rw [hmain]
    unfold mainLoaded
    rw [ht, hd]
    simp only [hv, hs1]
    refine ⟨_, rfl, ?_, ?_, ?_⟩
    · simp [finish, hs2, hs3, writeLines, freeLines_eq]
    · rw [finish_responses, hs4]
    · have h9 := finish_content
        [(bytes "t.txt", bytes "104 105 10 10"), (bytes "d.txt", bytes "70 111 120 10")]
        (bytes "t.txt") st
      rw [hs2] at h9
      exact h9
  · left
    constructor
    · intro fuel
      have hmain : main fuel garbage (fun _ => [])
          [bytes "spellcheck", bytes "t.txt", bytes "d.txt"]
          [(bytes "t.txt", bytes "104 105 10 10"), (bytes "d.txt", bytes "70 111 120 10")]
          (bytes "\nn") = mainLoaded fuel garbage (fun _ => [])
          [(bytes "t.txt", bytes "104 105 10 10"), (bytes "d.txt", bytes "70 111 120 10")]
          (bytes "t.txt") (bytes "d.txt") (bytes "\nn") := rfl
      have hv : isValidDictionary fuel garbage [bytes "hi", []] 1 = none := by
        have := validateLine_lowercase_first [bytes "hi", []] 0 104 rfl rfl fuel (garbage 0) hg
        simp [isValidDictionary, validateFrom, this]
      rw [hmain]
      unfold mainLoaded
      rcases readLines_eq_of_enough (fun _ => []) (fileContent
          [(bytes "t.txt", bytes "104 105 10 10"), (bytes "d.txt", bytes "70 111 120 10")]
          (bytes "t.txt")) 8 (Res.ok ([bytes "hi", []], 2)) rfl fuel with ht | ht <;>
        rcases readLines_eq_of_enough (fun _ => []) (fileContent
          [(bytes "t.txt", bytes "104 105 10 10"), (bytes "d.txt", bytes "70 111 120 10")]
          (bytes "d.txt")) 8 (Res.ok ([bytes "Fox"], 1)) rfl fuel with hd | hd <;>
        simp [ht, hd, hv]
    · intro fuel
      have hmain : main (fuel + 8) garbage (fun _ => [])
          [bytes "spellcheck", bytes "t.txt", bytes "d.txt"]
          [(bytes "t.txt", bytes "72 105 10"), (bytes "d.txt", bytes "102 111 120 10")] []
          = mainLoaded (fuel + 8) garbage (fun _ => [])
          [(bytes "t.txt", bytes "72 105 10"), (bytes "d.txt", bytes "102 111 120 10")]
          (bytes "t.txt") (bytes "d.txt") [] := rfl
      have ht : readLines (fuel + 8) (fun _ => []) (fileContent
          [(bytes "t.txt", bytes "72 105 10"), (bytes "d.txt", bytes "102 111 120 10")]
          (bytes "t.txt")) = some (Res.ok ([bytes "Hi"], 1)) :=
        benough (bytes "72 105 10") (Res.ok ([bytes "Hi"], 1)) rfl fuel
      have hd : readLines (fuel + 8) (fun _ => []) (fileContent
          [(bytes "t.txt", bytes "72 105 10"), (bytes "d.txt", bytes "102 111 120 10")]
          (bytes "d.txt")) = some (Res.ok ([bytes "fox"], 1)) :=
        benough (bytes "102 111 120 10") (Res.ok ([bytes "fox"], 1)) rfl fuel
      have hread : readAt [bytes "Hi"] 0 0 = some 72 := rfl
      have hv : isValidDictionary (fuel + 8) garbage [bytes "Hi"] 1
          = some (Validation.invalid 1) := by
        simp [isValidDictionary, validateFrom, validateLine, hg, hread, isspace, isupper]
      rw [hmain]
      unfold mainLoaded
      rw [ht, hd]
      simp only [hv]
      exact ⟨_, rfl, rfl⟩

/-! ## The prompt: unknown commands and the displayed context -/

/-- C17: a prompt for a word on the last stored line reads the line after it.
When the context before the word and a line of input are available and line
`i + 1` is not stored, the prompt ends in an out-of-range read, whatever the
line count `txtLineCount` says. -/
theorem prompt_on_last_line_reads_past (i txtLineCount fuel : Nat) (st : Scan)
    (previous before echoed rest : List Nat)
    (hprevious : (if i ≥ 1 then st.txtArray[i - 1]?.map (fun s => [10] ++ s ++ [10]) else some [])
      = some previous)
    (hbefore : printBefore st.txtArray i (st.p - st.wordLen) 0 = some before)
    (hecho : echoLine st.stdin = some (echoed, rest))
    (hlast : st.txtArray.length = i + 1) :
    prompt i txtLineCount (fuel + 1) st = some Flow.undefined ∧
      scanLines 50 [bytes "xx"] 1 [bytes "b"] 1 (bytes "\nn") = some Flow.undefined := by
  have hnone : st.txtArray[i + 1]? = none := by
    rw [List.getElem?_eq_none_iff]; omega
  refine ⟨?_, rfl⟩
  unfold prompt
  simp only [hprevious, hbefore, hecho, hnone]

theorem prompt_on_last_line_reads_past_witness :
    prompt 0 1 (3 + 1)
        { initScan [bytes "xx"] [bytes "b"] 1 (bytes "\nn") with
          word := bytes "bb" ++ [0, 0, 0], wordLen := 2, capacity := 5, p := 2 }
        = some Flow.undefined ∧
      scanLines 50 [bytes "xx"] 1 [bytes "b"] 1 (bytes "\nn") = some Flow.undefined :=
  prompt_on_last_line_reads_past 0 1 3
    { initScan [bytes "xx"] [bytes "b"] 1 (bytes "\nn") with
      word := bytes "bb" ++ [0, 0, 0], wordLen := 2, capacity := 5, p := 2 }
    [] [] [] (bytes "n") rfl rfl rfl rfl

/-! ## Exit statuses, the backup name, termination of the validation -/

/-- C16 (as stated, refuted): the exit status of the quit branch is not different
from the one of the failures, both are 1. -/
theorem quit_status_not_distinct :
    ¬ (USER_QUIT ≠ 0 ∧ USER_QUIT ≠ EXIT_FAILURE ∧
      exitCode Status.userQuit ≠ exitCode Status.usage ∧
      exitCode Status.userQuit ≠ exitCode (Status.cantOpen (bytes "t.txt")) ∧
      exitCode Status.userQuit ≠ exitCode (Status.invalidWord 1)) := by
  intro h
  exact h.2.1 rfl

/-- C16 (amended): the exit status of the quit branch is `USER_QUIT`, which is
non-zero and differs from the success status; it differs from a value of
`EXIT_FAILURE` exactly when that value is not 1, and with `EXIT_FAILURE` being 1
the quit branch and the three failures exit with the same status. -/
theorem quit_status_nonzero :
    exitCode Status.userQuit = some USER_QUIT ∧ USER_QUIT ≠ 0 ∧
      exitCode Status.userQuit ≠ exitCode Status.success ∧
      (∀ exitFailure : Nat, USER_QUIT ≠ exitFailure ↔ exitFailure ≠ 1) ∧
      exitCode Status.usage = some EXIT_FAILURE ∧
      (∀ name, exitCode (Status.cantOpen name) = some EXIT_FAILURE) ∧
      (∀ lineNo, exitCode (Status.invalidWord lineNo) = some EXIT_FAILURE) ∧
      USER_QUIT = EXIT_FAILURE := by
  refine ⟨rfl, by decide, by decide, ?_, rfl, fun _ => rfl, fun _ => rfl, rfl⟩
  intro exitFailure
  simp only [USER_QUIT]
  omega

/-- C13: the backup name does not contain the text file name.  For every name the
name built is `.bak`; a completed run on `t.txt` leaves the original content in
the file `.bak` and no file `t.txt.bak`. -/
theorem backup_name_lacks_file_name :
    (∀ txtName, backupName txtName = bytes ".bak") ∧
    (∃ r, main 8 (fun _ => 0) (fun _ => []) [bytes "spellcheck", bytes "t.txt", bytes "d.txt"]
        [(bytes "t.txt", bytes "104 105 10 10"), (bytes "d.txt", bytes "70 111 120 10")]
        (bytes "\nn") = some r ∧ r.status = Status.doubleFree ∧
      fileContent r.files (bytes "t.txt.bak") = none ∧
      fileContent r.files (bytes ".bak") = some (bytes "104 105 10 10") ∧
      fileContent r.files (bytes "t.txt") = some (bytes "hi\n\n")) := by
  refine ⟨?_, ⟨_, rfl, rfl, rfl, rfl, rfl⟩⟩
  intro txtName
  unfold backupName strcat cstr malloc
  rw [List.takeWhile_eq_nil_iff.mpr]
  · rfl
  · intro h
    simp [List.getElem_replicate]

/-- C18: `isValidDictionary` does not terminate when the first entry starts with a
lowercase letter and the uninitialised `ch` is not 0: the scan re-reads the first
character of the entry for ever. -/
theorem isValidDictionary_diverges (garbage : Nat → Nat) (dictionary : List (List Nat))
    (lineCount c : Nat) (hcount : 0 < lineCount) (hgarbage : garbage 0 ≠ 0)
    (hread : readAt dictionary 0 0 = some c) (hlower : islower c = true) :
    ∀ fuel, isValidDictionary fuel garbage dictionary lineCount = none := by
  intro fuel
  obtain ⟨todo, rfl⟩ : ∃ todo, lineCount = todo + 1 := ⟨lineCount - 1, by omega⟩
  have := validateLine_lowercase_first dictionary 0 c hread hlower fuel (garbage 0) hgarbage
  simp [isValidDictionary, validateFrom, this]

theorem isValidDictionary_diverges_witness :
    isValidDictionary 1000 (fun _ => 1) [bytes "abc"] 1 = none :=
  isValidDictionary_diverges (fun _ => 1) [bytes "abc"] 1 97 (by decide) (by decide) rfl rfl 1000

/-! ## The dictionary order, the lookup key, reads in bounds -/

theorem compareWords_total (a b : List Nat) : compareWords a b ≤ 0 ∨ compareWords b a ≤ 0 := by
  have := strcmp_swap a b
  simp only [compareWords]
  omega

theorem compareWords_trans (a b c : List Nat) (h1 : compareWords a b ≤ 0)
    (h2 : compareWords b c ≤ 0) : compareWords a c ≤ 0 := by
  simp only [compareWords] at *
  by_cases h : strcmp a b < 0
  · exact le_of_lt (strcmp_neg_trans h h2)
  · have hab : a = b := strcmp_eq_zero (by omega)
    rw [hab]; exact h2

/-- C14: `sortWords` sorts the loaded entries, as a permutation of them, but the
add branch does not keep the order.  With the loaded entries `d`, `b`, `c` the
word `bb` is added on line 0, and the lookup of `cc` on line 1 runs on the
array `b`, `c`, `d`, `bb`, which is not sorted. -/
theorem add_breaks_dictionary_order :
    (∀ dictArray : List (List Nat),
      (sortWords dictArray dictArray.length).Pairwise (fun a b => compareWords a b ≤ 0) ∧
      (sortWords dictArray dictArray.length).Perm dictArray) ∧
    (∃ st, scanLines 50 [bytes "xx", bytes "yy", []] 3
        (sortWords [bytes "d", bytes "b", bytes "c"] 3) 3 (bytes "\na\nn") = some (Flow.next st) ∧
      st.lookups = [(bytes "bb", bytes "bb"), (bytes "cc", bytes "cc")] ∧
      st.dictArray = [bytes "b", bytes "c", bytes "d", bytes "bb"] ∧
      st.dictLineCount = 4 ∧
      ¬ (st.dictArray.take st.dictLineCount).Pairwise (fun a b => compareWords a b ≤ 0)) := by
  constructor
  · intro dictArray
    haveI : IsTotal (List Nat) (fun a b => compareWords a b ≤ 0) := ⟨compareWords_total⟩
    haveI : IsTrans (List Nat) (fun a b => compareWords a b ≤ 0) := ⟨compareWords_trans⟩
    simp only [sortWords, List.take_length, List.drop_length, List.append_nil]
    exact ⟨List.sorted_insertionSort _ dictArray, List.perm_insertionSort _ dictArray⟩
  · refine ⟨_, rfl, rfl, rfl, rfl, ?_⟩
    decide

/-- C15: the key passed to `searchDictionary` can hold bytes of an earlier word.
On the line ` hello   hi` the second word collected is `hi`, its folding is `hi`,
but the key looked up is `hillo`, which the dictionary holds; the text line is
unchanged. -/
theorem lookup_key_keeps_earlier_bytes :
    ∃ st, scanLines 50 [bytes " hello   hi"] 1
        [bytes " hello   hi", bytes "hello", bytes "hillo"] 3 [] = some (Flow.next st) ∧
      st.lookups = [(bytes "hello", bytes "hello"), (bytes "hi", bytes "hillo")] ∧
      (bytes "hi").map tolower = bytes "hi" ∧
      st.txtArray = [bytes " hello   hi"] :=
  ⟨_, rfl, rfl, rfl, rfl⟩

/-- C19: the scanning loop reads outside the dictionary array.  With one text line
and an empty dictionary it reads `dictArray[0]`; on the line `.` the loop that
skips non-alphabetic characters reads the terminator at position 1 and then
position 2, past the terminator. -/
theorem scan_reads_out_of_bounds :
    scanLines 50 [bytes "x"] 1 [] 0 [] = some Flow.undefined ∧
    readAt [] 0 0 = none ∧
    scanLines 50 [bytes "."] 1 [bytes "."] 1 [] = some Flow.undefined ∧
    skipLoop 0 50 { initScan [bytes "."] [bytes "."] 1 [] with ch := 46, p := 0 }
      = some Res.undefined ∧
    readAt [bytes "."] 0 1 = some 0 ∧
    readAt [bytes "."] 0 2 = none :=
  ⟨rfl, rfl, rfl, rfl, rfl, rfl⟩

/-! ## The growable buffers -/

theorem realloc_length (heapLimit : Nat) (buf buf1 : List Nat) (n : Nat)
    (h : realloc heapLimit buf n = some buf1) : buf1.length = n := by
  unfold realloc at h
  split at h
  · cases h
    simp only [malloc, List.length_append, List.length_take, List.length_replicate]
    omega
  · cases h

theorem store_some (buf buf1 : List Nat) (idx c : Nat) (h : store buf idx c = some buf1) :
    idx < buf.length ∧ buf1.length = buf.length ∧ buf1[idx]? = some c := by
  unfold store at h
  split at h
  · rename_i hlt
    cases h
    exact ⟨hlt, List.length_set _ _ _, List.getElem?_set_self (by simpa using hlt)⟩
  · cases h

theorem growStore_some (heapLimit : Nat) (buf : List Nat) (len capacity c : Nat)
    (buf1 : List Nat) (capacity1 : Nat)
    (h : growStore heapLimit buf len capacity c = some (buf1, capacity1))
    (hbuf : buf.length = capacity) (hlen : len + 1 ≤ capacity) :
    len < capacity1 ∧ len + 1 + 1 ≤ capacity1 ∧ buf1.length = capacity1 ∧
      buf1[len]? = some c := by
  unfold growStore grow at h
  by_cases hge : len + 1 ≥ capacity
  · rw [if_pos hge] at h
    by_cases hov : capacity * 2 ≤ INT_MAX
    · rw [if_pos hov] at h
      simp only [if_pos hge] at h
      split at h
      · cases h
      · rename_i buf2 hr
        have hl := realloc_length _ _ _ _ hr
        obtain ⟨b, hb, hbe⟩ := map_some_inv h
        cases hbe
        obtain ⟨s1, s2, s3⟩ := store_some _ _ _ _ hb
        exact ⟨by omega, by omega, by omega, s3⟩
    · rw [if_neg hov] at h
      cases h
  · rw [if_neg hge] at h
    simp only [if_neg hge] at h
    obtain ⟨b, hb, hbe⟩ := map_some_inv h
    cases hbe
    obtain ⟨s1, s2, s3⟩ := store_some _ _ _ _ hb
    exact ⟨by omega, by omega, by omega, s3⟩

theorem growStore_none_iff (heapLimit : Nat) (buf : List Nat) (len capacity c : Nat)
    (hbuf : buf.length = capacity) (hlen : len + 1 ≤ capacity) :
    growStore heapLimit buf len capacity c = none ↔
      len + 1 = capacity ∧ (INT_MAX < capacity * 2 ∨ heapLimit < capacity * 2) := by
  unfold growStore grow
  by_cases hge : len + 1 ≥ capacity
  · rw [if_pos hge]
    by_cases hov : capacity * 2 ≤ INT_MAX
    · rw [if_pos hov]
      simp only [if_pos hge]
      by_cases hh : capacity * 2 ≤ heapLimit
      · have hs : len < (List.take (capacity * 2) buf
            ++ malloc (capacity * 2 - buf.length)).length := by
          simp only [malloc, List.length_append, List.length_take, List.length_replicate]
          omega
        simp only [realloc, if_pos hh, store, if_pos hs, Option.map_some']
        constructor
        · intro h; cases h
        · rintro ⟨_, h | h⟩ <;> omega
      · simp only [realloc, if_neg hh]
        constructor
        · intro _; exact ⟨by omega, Or.inr (by omega)⟩
        · intro _; trivial
    · rw [if_neg hov]
      constructor
      · intro _; exact ⟨by omega, Or.inl (by omega)⟩
      · intro _; trivial
  · rw [if_neg hge]
    have hs : len < buf.length := by omega
    simp only [if_neg hge, store, if_pos hs, Option.map_some']
    constructor
    · intro h; cases h
    · rintro ⟨h, _⟩; omega

theorem pushChar_undefined_iff (st : Scan) (h : WordInv st) :
    pushChar st = Res.undefined ↔
      st.wordLen + 1 = st.capacity ∧
        (INT_MAX < st.capacity * 2 ∨ st.heapLimit < st.capacity * 2) := by
  rw [← growStore_none_iff st.heapLimit st.word st.wordLen st.capacity st.ch h.1 h.2]
  unfold pushChar
  split
  · rename_i hg; simp [hg]
  · rename_i hg; simp [hg]

theorem pushChar_inv (st st1 : Scan) (hp : pushChar st = Res.ok st1) (h : WordInv st) :
    st.wordLen < st1.capacity ∧ st1.word[st.wordLen]? = some st.ch ∧
      st1.wordLen = st.wordLen + 1 ∧ WordInv st1 := by
  obtain ⟨word, capacity, hg, rfl⟩ := pushChar_eq _ _ hp
  obtain ⟨g1, g2, g3, g4⟩ := growStore_some _ _ _ _ _ _ _ hg h.1 h.2
  exact ⟨g1, g4, rfl, g3, g2⟩

theorem skipLoop_inv (i : Nat) : ∀ fuel st st1,
    skipLoop i fuel st = some (Res.ok st1) → WordInv st → WordInv st1 := by
  intro fuel
  induction fuel with
  | zero => intro st st1 h; simp [skipLoop] at h
  | succ fuel ih =>
    intro st st1 h hinv
    unfold skipLoop at h
    split at h
    · split at h
      · cases h
      · exact ih _ _ h hinv
    · cases h; exact hinv

theorem collectLoop_inv (i : Nat) : ∀ fuel st st1,
    collectLoop i fuel st = some (Res.ok st1) → WordInv st → WordInv st1 := by
  intro fuel
  induction fuel with
  | zero => intro st st1 h; simp [collectLoop] at h
  | succ fuel ih =>
    intro st st1 h hinv
    unfold collectLoop at h
    split at h
    · split at h
      · cases h
      · rename_i st2 hp
        have e2 := (pushChar_inv _ _ hp hinv).2.2.2
        split at h
        · cases h
        · exact ih _ _ h e2
    · cases h; exact hinv

theorem replaceLoop_inv : ∀ fuel input st st1,
    replaceLoop fuel input st = some (Res.ok st1) → WordInv st → WordInv st1 := by
  intro fuel
  induction fuel with
  | zero => intro input st st1 h; simp [replaceLoop] at h
  | succ fuel ih =>
    intro input st st1 h hinv
    cases input with
    | nil =>
      unfold replaceLoop at h
      split at h
      · cases h
      · rename_i st2 hp
        exact ih _ _ _ h (pushChar_inv _ _ hp hinv).2.2.2
    | cons c rest =>
      unfold replaceLoop at h
      split at h
      · split at h
        · cases h
        · rename_i st2 hp
          exact ih _ _ _ h (pushChar_inv _ _ hp hinv).2.2.2
      · cases h; exact hinv

theorem replaceWord_ok (fuel : Nat) (st st2 : Scan)
    (h : replaceWord fuel st = some (Res.ok st2)) (hinv : WordInv st) :
    ∃ st1, replaceLoop fuel (getchar st.stdin).2 st = some (Res.ok st1) ∧
      st1.wordLen < st1.capacity ∧ st2.word[st1.wordLen]? = some 0 ∧ BufOk st2 := by
  unfold replaceWord at h
  split at h
  · cases h
  · cases h
  · rename_i st1 hl
    obtain ⟨h1, h2⟩ := replaceLoop_inv _ _ _ _ hl hinv
    split at h
    · cases h
    · rename_i word hs
      cases h
      obtain ⟨s1, s2, s3⟩ := store_some _ _ _ _ hs
      refine ⟨st1, hl, by omega, s3, ?_, ?_⟩
      · show word.length = st1.capacity
        omega
      · show 1 ≤ st1.capacity
        omega

theorem replaceWord_terminator (fuel : Nat) (st st1 : Scan)
    (hl : replaceLoop fuel (getchar st.stdin).2 st = some (Res.ok st1)) (hinv : WordInv st) :
    replaceWord fuel st = some (Res.ok { st1 with
      word := st1.word.set st1.wordLen 0, wordLen := st1.wordLen + 1 }) := by
  obtain ⟨h1, h2⟩ := replaceLoop_inv _ _ _ _ hl hinv
  have hs : st1.wordLen < st1.word.length := by omega
  simp only [replaceWord, hl, store, if_pos hs]

theorem replaceBranch_ok (fuel : Nat) (st : Scan) (flow : Flow)
    (h : (replaceWord fuel st).map branchEnd = some flow) (hinv : WordInv st) :
    flow.Holds BufOk := by
  obtain ⟨r, hr, rfl⟩ := map_some_inv h
  cases r with
  | undefined => trivial
  | ok st2 => exact (replaceWord_ok fuel st st2 hr hinv).choose_spec.2.2.2

theorem addBranch_ok (st : Scan) (hok : BufOk st) : (branchEnd (addWord st)).Holds BufOk := by
  unfold addWord
  split
  · exact hok
  · trivial

theorem foldWord_length (word folded : List Nat) (h : foldWord word = some folded) :
    folded.length = word.length := by
  unfold foldWord at h
  split at h
  · cases h
    have hle : (List.takeWhile (fun c => c != 0) word).length ≤ word.length :=
      (List.takeWhile_sublist _).length_le
    simp only [cstr, strlen, List.length_append, List.length_map, List.length_drop]
    omega
  · cases h

theorem prompt_ok (i n : Nat) : ∀ fuel st flow,
    prompt i n fuel st = some flow → WordInv st → flow.Holds BufOk := by
  intro fuel
  induction fuel with
  | zero => intro st flow h; simp [prompt] at h
  | succ fuel ih =>
    intro st flow h hinv
    have hok : BufOk st := ⟨hinv.1, by have := hinv.2; omega⟩
    unfold prompt at h
    split at h
    · split at h
      · cases h
      · split at h
        · cases h; trivial
        · simp only at h
          split_ifs at h
          · cases h; exact hok
          · cases h; exact hok
          · cases h; exact addBranch_ok _ hok
          · exact (replaceBranch_ok _ _ _ h hinv :)
          · exact (ih _ _ h hinv :)
    · cases h; trivial

theorem lineLoop_ok (i n lineLen : Nat) : ∀ fuel st flow,
    lineLoop i n lineLen fuel st = some flow → BufOk st → flow.Holds BufOk := by
  intro fuel
  induction fuel with
  | zero => intro st flow h; simp [lineLoop] at h
  | succ fuel ih =>
    intro st flow h hok
    unfold lineLoop at h
    split at h
    · split at h
      · cases h; trivial
      · split at h
        · cases h
        · cases h; trivial
        · rename_i st1 h1
          have e1 : WordInv st1 := skipLoop_inv _ _ _ _ h1 ⟨hok.1, hok.2⟩
          split at h
          · cases h
          · cases h; trivial
          · rename_i st2 h2
            have e2 : WordInv st2 := collectLoop_inv _ _ _ _ h2 e1
            split at h
            · cases h; trivial
            · rename_i folded hf
              have hlen := foldWord_length _ _ hf
              have e3 : WordInv { st2 with
                  word := folded
                  lookups := st2.lookups ++ [(st2.word.take st2.wordLen, cstr folded)] } :=
                ⟨hlen.trans e2.1, e2.2⟩
              simp only at h
              split at h
              · exact ih _ _ h ⟨e3.1, le_trans (Nat.le_add_left 1 st2.wordLen) e2.2⟩
              · split at h
                · cases h
                · rename_i st4 h4
                  have e4 := prompt_ok _ _ _ _ _ h4 e3
                  exact ih _ _ h e4
                · rename_i st4 h4
                  have e4 := prompt_ok _ _ _ _ _ h4 e3
                  cases h
                  exact e4
                · rename_i st4 h4
                  have e4 := prompt_ok _ _ _ _ _ h4 e3
                  cases h
                  exact e4
                · cases h; trivial
    · cases h; exact hok

theorem readLineLoop_terminator (heapLimit : Nat) : ∀ fuel input line len capacity out rest,
    readLineLoop heapLimit fuel input line len capacity = some (Res.ok (some out, rest)) →
    line.length = capacity → len + 1 ≤ capacity →
    ∃ n, len ≤ n ∧ n < out.length ∧ out[n]? = some 0 := by
  intro fuel
  induction fuel with
  | zero => intro input line len capacity out rest h; simp [readLineLoop] at h
  | succ fuel ih =>
    intro input line len capacity out rest h hline hlen
    unfold readLineLoop at h
    split at h
    · split at h
      · cases h
      · rename_i line1 capacity1 hg
        obtain ⟨g1, g2, g3, g4⟩ := growStore_some _ _ _ _ _ _ _ hg hline hlen
        split at h
        · split at h
          · cases h
          · rename_i line2 hs
            simp only [Option.some.injEq, Res.ok.injEq, Prod.mk.injEq] at h
            obtain ⟨rfl, _⟩ := h
            obtain ⟨s1, s2, s3⟩ := store_some _ _ _ _ hs
            rw [Nat.add_sub_cancel] at s3 s1
            exact ⟨len, le_refl _, by omega, s3⟩
        · obtain ⟨n, hn1, hn2, hn3⟩ := ih _ _ _ _ _ _ h g3 (by omega)
          exact ⟨n, by omega, hn2, hn3⟩
    · simp at h

/-! ## A store is undefined only when the growth of the buffer fails -/

theorem pushChar_heapLimit (st st1 : Scan) (hp : pushChar st = Res.ok st1) :
    st1.heapLimit = st.heapLimit := by
  obtain ⟨word, capacity, _, rfl⟩ := pushChar_eq _ _ hp
  rfl

theorem collectLoop_undefined (i : Nat) : ∀ fuel st,
    collectLoop i fuel st = some Res.undefined → WordInv st →
    (∃ st1, WordInv st1 ∧ st1.heapLimit = st.heapLimit ∧
        GrowthFails st1.heapLimit st1.wordLen st1.capacity) ∨
      ∃ st1 : Scan, readAt st1.dictArray i st1.p = none := by
  intro fuel
  induction fuel with
  | zero => intro st h; simp [collectLoop] at h
  | succ fuel ih =>
    intro st h hinv
    unfold collectLoop at h
    split at h
    · split at h
      · rename_i hp
        exact Or.inl ⟨st, hinv, rfl, (pushChar_undefined_iff st hinv).mp hp⟩
      · rename_i st2 hp
        have e2 := (pushChar_inv _ _ hp hinv).2.2.2
        have hh := pushChar_heapLimit _ _ hp
        split at h
        · rename_i hr
          exact Or.inr ⟨st, hr⟩
        · rcases ih _ h e2 with ⟨st1, h1, h2, h3⟩ | hr
          · exact Or.inl ⟨st1, h1, h2.trans hh, h3⟩
          · exact Or.inr hr
    · cases h

theorem replaceLoop_undefined : ∀ fuel input st,
    replaceLoop fuel input st = some Res.undefined → WordInv st →
    ∃ st1, WordInv st1 ∧ st1.heapLimit = st.heapLimit ∧
      GrowthFails st1.heapLimit st1.wordLen st1.capacity := by
  intro fuel
  induction fuel with
  | zero => intro input st h; simp [replaceLoop] at h
  | succ fuel ih =>
    intro input st h hinv
    cases input with
    | nil =>
      unfold replaceLoop at h
      split at h
      · rename_i hp
        exact ⟨st, hinv, rfl, (pushChar_undefined_iff st hinv).mp hp⟩
      · rename_i st2 hp
        obtain ⟨st1, h1, h2, h3⟩ := ih _ _ h (pushChar_inv _ _ hp hinv).2.2.2
        exact ⟨st1, h1, h2.trans (pushChar_heapLimit _ _ hp), h3⟩
    | cons c rest =>
      unfold replaceLoop at h
      split at h
      · split at h
        · rename_i hp
          exact ⟨st, hinv, rfl, (pushChar_undefined_iff st hinv).mp hp⟩
        · rename_i st2 hp
          obtain ⟨st1, h1, h2, h3⟩ := ih _ _ h (pushChar_inv _ _ hp hinv).2.2.2
          exact ⟨st1, h1, h2.trans (pushChar_heapLimit _ _ hp), h3⟩
      · cases h

theorem replaceWord_undefined (fuel : Nat) (st : Scan)
    (h : replaceWord fuel st = some Res.undefined) (hinv : WordInv st) :
    ∃ st1, WordInv st1 ∧ st1.heapLimit = st.heapLimit ∧
      GrowthFails st1.heapLimit st1.wordLen st1.capacity := by
  cases hl : replaceLoop fuel (getchar st.stdin).2 st with
  | none => simp [replaceWord, hl] at h
  | some r =>
    cases r with
    | undefined => exact replaceLoop_undefined _ _ _ hl hinv
    | ok st1 =>
      rw [replaceWord_terminator fuel st st1 hl hinv] at h
      cases h

theorem readLineLoop_undefined (heapLimit : Nat) : ∀ fuel input line len capacity,
    readLineLoop heapLimit fuel input line len capacity = some Res.undefined →
    line.length = capacity → len + 1 ≤ capacity →
    ∃ len1 capacity1, len ≤ len1 ∧ GrowthFails heapLimit len1 capacity1 := by
  intro fuel
  induction fuel with
  | zero => intro input line len capacity h; simp [readLineLoop] at h
  | succ fuel ih =>
    intro input line len capacity h hline hlen
    unfold readLineLoop at h
    split at h
    · split at h
      · rename_i hg
        exact ⟨len, capacity, le_refl _,
          (growStore_none_iff heapLimit line len capacity _ hline hlen).mp hg⟩
      · rename_i line1 capacity1 hg
        obtain ⟨g1, g2, g3, g4⟩ := growStore_some _ _ _ _ _ _ _ hg hline hlen
        split at h
        · split at h
          · rename_i hs
            have hlt : len + 1 - 1 < line1.length := by omega
            unfold store at hs
            rw [if_pos hlt] at hs
            cases hs
          · cases h
        · obtain ⟨len1, capacity2, h1, h2⟩ := ih _ _ _ _ h g3 (by omega)
          exact ⟨len1, capacity2, by omega, h2⟩
    · cases h

/-! ## The replacement loop at the end of the input -/

theorem grow_le (len capacity capacity1 : Nat) (h : grow len capacity = some capacity1)
    (hge : len + 1 ≥ capacity) : capacity1 ≤ INT_MAX := by
  unfold grow at h
  rw [if_pos hge] at h
  by_cases hov : capacity * 2 ≤ INT_MAX
  · rw [if_pos hov] at h
    cases h
    exact hov
  · rw [if_neg hov] at h
    cases h

theorem pushChar_length (st st1 : Scan) (hp : pushChar st = Res.ok st1) (bound : Nat)
    (hb : INT_MAX ≤ bound) (hw : st.word.length ≤ bound) :
    st1.word.length ≤ bound ∧ st1.wordLen = st.wordLen + 1 ∧ st.wordLen < st1.word.length := by
  obtain ⟨word, capacity, hg, rfl⟩ := pushChar_eq _ _ hp
  unfold growStore at hg
  split at hg
  · cases hg
  · rename_i capacity1 hgrow
    split at hg
    · cases hg
    · rename_i buf1 hr
      obtain ⟨b, hs, hbe⟩ := map_some_inv hg
      have e1 : b = word := congrArg Prod.fst hbe
      obtain ⟨s1, s2, s3⟩ := store_some _ _ _ _ hs
      have hl : buf1.length ≤ bound := by
        split at hr
        · rename_i hge
          have := realloc_length _ _ _ _ hr
          have := grow_le _ _ _ hgrow hge
          omega
        · cases hr; exact hw
      refine ⟨?_, rfl, ?_⟩
      · show word.length ≤ bound
        rw [← e1]; omega
      · show st.wordLen < word.length
        rw [← e1]; omega

theorem replaceLoop_undefined_step (fuel : Nat) (input : List Nat) (st : Scan)
    (hp : pushChar st = Res.undefined) (h0 : ∀ c rest, input = c :: rest → (c != 0) = true) :
    replaceLoop (fuel + 1) input st = some Res.undefined := by
  cases input with
  | nil => simp only [replaceLoop, hp]
  | cons c rest => simp only [replaceLoop, h0 c rest rfl, if_true, hp]

theorem replaceLoop_eof (bound : Nat) (hb : INT_MAX ≤ bound) : ∀ k st,
    st.word.length ≤ bound → bound + 1 - st.wordLen ≤ k →
    ∃ enough, ∀ extra, replaceLoop (enough + extra + 1) [] st = some Res.undefined := by
  intro k
  induction k with
  | zero =>
    intro st hw hk
    refine ⟨0, fun extra => ?_⟩
    cases hp : pushChar st with
    | undefined => exact replaceLoop_undefined_step _ _ _ hp (fun _ _ h => by cases h)
    | ok st1 =>
      have := pushChar_length _ _ hp bound hb hw
      omega
  | succ k ih =>
    intro st hw hk
    cases hp : pushChar st with
    | undefined =>
      exact ⟨0, fun extra => replaceLoop_undefined_step _ _ _ hp (fun _ _ h => by cases h)⟩
    | ok st1 =>
      obtain ⟨l1, l2, l3⟩ := pushChar_length _ _ hp bound hb hw
      obtain ⟨enough, he⟩ := ih st1 l1 (by omega)
      refine ⟨enough + 1, fun extra => ?_⟩
      have hfuel : enough + 1 + extra + 1 = (enough + extra + 1) + 1 := by omega
      rw [hfuel]
      conv => lhs; unfold replaceLoop
      simp only [hp]
      exact he extra

theorem replaceLoop_no_nul : ∀ (input : List Nat) (st : Scan), 0 ∉ input →
    ∃ enough, ∀ extra, replaceLoop (enough + extra + 1) input st = some Res.undefined := by
  intro input
  induction input with
  | nil =>
    intro st _
    exact replaceLoop_eof (max st.word.length INT_MAX) (le_max_right _ _)
      (max st.word.length INT_MAX + 1 - st.wordLen) st (le_max_left _ _) (le_refl _)
  | cons c rest ih =>
    intro st h0
    have hc : (c != 0) = true := by
      simp only [bne_iff_ne, ne_eq]
      intro hc
      exact h0 (by simp [hc])
    have hrest : 0 ∉ rest := fun h => h0 (List.mem_cons_of_mem _ h)
    cases hp : pushChar st with
    | undefined =>
      refine ⟨0, fun extra => replaceLoop_undefined_step _ _ _ hp (fun c1 r1 h => ?_)⟩
      cases h
      exact hc
    | ok st1 =>
      obtain ⟨enough, he⟩ := ih st1 hrest
      refine ⟨enough + 1, fun extra => ?_⟩
      have hfuel : enough + 1 + extra + 1 = (enough + extra + 1) + 1 := by omega
      rw [hfuel]
      conv => lhs; unfold replaceLoop
      simp only [hc, if_true, hp]
      exact he extra

theorem replaceWord_no_nul (st : Scan) (h0 : 0 ∉ (getchar st.stdin).2) :
    ∃ enough, ∀ extra, replaceWord (enough + extra + 1) st = some Res.undefined := by
  obtain ⟨enough, he⟩ := replaceLoop_no_nul _ st h0
  exact ⟨enough, fun extra => by simp only [replaceWord, he extra]⟩

theorem prompt_replace_no_nul (i n : Nat) (st : Scan)
    (previous before echoed rest following : List Nat)
    (hprevious : (if i ≥ 1 then st.txtArray[i - 1]?.map (fun s => [10] ++ s ++ [10]) else some [])
      = some previous)
    (hbefore : printBefore st.txtArray i (st.p - st.wordLen) 0 = some before)
    (hecho : echoLine st.stdin = some (echoed, 114 :: rest))
    (hfollowing : st.txtArray[i + 1]? = some following)
    (h0 : 0 ∉ (getchar rest).2) :
    ∃ enough, ∀ extra, prompt i n (enough + extra + 2) st = some Flow.undefined := by
  obtain ⟨enough, he⟩ := replaceWord_no_nul { st with
    stdin := rest
    stdout := st.stdout ++ promptText i n st previous before echoed following
    responses := st.responses ++ [((114 : Nat) : Int)] } h0
  refine ⟨enough, fun extra => ?_⟩
  unfold prompt
  simp only [hprevious, hbefore, hecho, hfollowing, getchar]
  have h1 : ¬ ((114 : Nat) : Int) = 113 := by decide
  have h2 : ¬ ((114 : Nat) : Int) = 110 := by decide
  have h3 : ¬ ((114 : Nat) : Int) = 97 := by decide
  have h4 : ((114 : Nat) : Int) = 114 := rfl
  rw [if_neg h1, if_neg h2, if_neg h3, if_pos h4]
  have := he extra
  simp only [getchar] at this
  rw [this]
  rfl

/-- C20 (as stated, refuted): the doubling check does not keep every store in
bounds.  In a state with `wordLen + 1 <= capacity` and the full capacity
1342177280 (5 doubled 28 times) the next store doubles the `int` capacity beyond
`INT_MAX`, in `main` as in `readLine`; with an allocator that grants at most 9
bytes the first doubling of a full buffer of 5 bytes stores through the null
result of `realloc`, which is not checked.  The replace command followed by
`oups` and the end of the input reaches such a store from a buffer of 5 bytes:
at the end of the input the replacement loop keeps storing. -/
theorem buffer_growth_fails :
    (WordInv { initScan [] [] 0 [] with
        word := malloc 1342177280, wordLen := 1342177279, capacity := 1342177280, ch := 97 } ∧
      pushChar { initScan [] [] 0 [] with
        word := malloc 1342177280, wordLen := 1342177279, capacity := 1342177280, ch := 97 }
        = Res.undefined ∧
      growStore INT_MAX (malloc 1342177280) 1342177279 1342177280 97 = none) ∧
    (WordInv { initScan [] [] 0 [] with
        word := malloc 5, wordLen := 4, capacity := 5, ch := 97, heapLimit := 9 } ∧
      pushChar { initScan [] [] 0 [] with
        word := malloc 5, wordLen := 4, capacity := 5, ch := 97, heapLimit := 9 }
        = Res.undefined) ∧
    (WordInv { initScan [bytes "oops", []] [bytes "ops"] 1 (bytes "\nr oups") with
        word := bytes "oops" ++ [0], wordLen := 4, capacity := 5, p := 5 } ∧
      ∃ fuel, prompt 0 2 fuel
        { initScan [bytes "oops", []] [bytes "ops"] 1 (bytes "\nr oups") with
          word := bytes "oops" ++ [0], wordLen := 4, capacity := 5, p := 5 }
        = some Flow.undefined) := by
  have hbig : (malloc 1342177280).length = 1342177280 := List.length_replicate _ _
  have hfull : 1342177279 + 1 ≤ 1342177280 := Nat.le_refl _
  have hover : INT_MAX < 1342177280 * 2 := by decide
  refine ⟨⟨⟨hbig, hfull⟩, ?_, ?_⟩, ⟨⟨rfl, by decide⟩, rfl⟩, ⟨rfl, by decide⟩, ?_⟩
  · exact (pushChar_undefined_iff _ ⟨hbig, hfull⟩).mpr ⟨rfl, Or.inl hover⟩
  · exact (growStore_none_iff INT_MAX _ 1342177279 1342177280 97 hbig hfull).mpr
      ⟨rfl, Or.inl hover⟩
  · obtain ⟨enough, he⟩ := prompt_replace_no_nul 0 2
      { initScan [bytes "oops", []] [bytes "ops"] 1 (bytes "\nr oups") with
        word := bytes "oops" ++ [0], wordLen := 4, capacity := 5, p := 5 }
      [] (bytes "o") [] (bytes " oups") [] rfl rfl rfl rfl (by decide)
    exact ⟨enough + 0 + 2, he 0⟩

/-- C20 (amended): as long as no doubling overflows the `int` capacity and
`realloc` does not return null, every store of the growable buffers is below the
capacity.  From a state with `wordLen + 1 <= capacity` the store of the
collection and replacement loops is undefined exactly when the buffer is full
and the doubled capacity exceeds `INT_MAX` or the size `realloc` grants;
otherwise it lands at an index below the capacity after the doubling check and
keeps `wordLen + 1 <= capacity`.  Both loops keep that bound and are undefined
only when the growth fails in a state within the bound (the collection loop also
when it reads outside the line), the terminator of the replace branch is stored
inside the buffer, and the scan of a line, which resets `wordLen` to 0 for each
word, keeps the buffer at its capacity.  The same holds for the store of
`readLine`, whose terminator lands inside the returned buffer. -/
theorem stores_in_bounds (st : Scan) (hinv : WordInv st) (line : List Nat)
    (heapLimit len capacity : Nat) (hline : line.length = capacity) (hlen : len + 1 ≤ capacity) :
    (pushChar st = Res.undefined ↔ GrowthFails st.heapLimit st.wordLen st.capacity) ∧
    (∀ st1, pushChar st = Res.ok st1 →
      st.wordLen < st1.capacity ∧ st1.word[st.wordLen]? = some st.ch ∧
        st1.wordLen = st.wordLen + 1 ∧ WordInv st1) ∧
    (∀ i fuel st1, collectLoop i fuel st = some (Res.ok st1) → WordInv st1) ∧
    (∀ fuel input st1, replaceLoop fuel input st = some (Res.ok st1) → WordInv st1) ∧
    (∀ fuel st1, replaceLoop fuel (getchar st.stdin).2 st = some (Res.ok st1) →
      st1.wordLen < st1.capacity ∧
        replaceWord fuel st = some (Res.ok { st1 with
          word := st1.word.set st1.wordLen 0, wordLen := st1.wordLen + 1 })) ∧
    (∀ fuel st2, replaceWord fuel st = some (Res.ok st2) →
      ∃ st1, replaceLoop fuel (getchar st.stdin).2 st = some (Res.ok st1) ∧
        st1.wordLen < st1.capacity ∧ st2.word[st1.wordLen]? = some 0 ∧ BufOk st2) ∧
    (∀ i fuel, collectLoop i fuel st = some Res.undefined →
      (∃ st1, WordInv st1 ∧ st1.heapLimit = st.heapLimit ∧
          GrowthFails st1.heapLimit st1.wordLen st1.capacity) ∨
        ∃ st1 : Scan, readAt st1.dictArray i st1.p = none) ∧
    (∀ fuel input, replaceLoop fuel input st = some Res.undefined →
      ∃ st1, WordInv st1 ∧ st1.heapLimit = st.heapLimit ∧
        GrowthFails st1.heapLimit st1.wordLen st1.capacity) ∧
    (∀ fuel, replaceWord fuel st = some Res.undefined →
      ∃ st1, WordInv st1 ∧ st1.heapLimit = st.heapLimit ∧
        GrowthFails st1.heapLimit st1.wordLen st1.capacity) ∧
    (∀ i n lineLen fuel flow, lineLoop i n lineLen fuel st = some flow → flow.Holds BufOk) ∧
    WordInv { st with word := malloc 5, wordLen := 0, capacity := 5 } ∧
    WordInv { st with wordLen := 0 } ∧
    (∀ c, growStore heapLimit line len capacity c = none ↔
      GrowthFails heapLimit len capacity) ∧
    (∀ c line1 capacity1, growStore heapLimit line len capacity c = some (line1, capacity1) →
      len < capacity1 ∧ len + 1 + 1 ≤ capacity1 ∧ line1.length = capacity1 ∧
        line1[len]? = some c) ∧
    (∀ fuel input out rest,
      readLineLoop heapLimit fuel input line len capacity = some (Res.ok (some out, rest)) →
      ∃ n, len ≤ n ∧ n < out.length ∧ out[n]? = some 0) ∧
    (∀ fuel input, readLineLoop heapLimit fuel input line len capacity = some Res.undefined →
      ∃ len1 capacity1, len ≤ len1 ∧ GrowthFails heapLimit len1 capacity1) ∧
    ((malloc 5).length = 5 ∧ 0 + 1 ≤ 5) := by
  have hok : BufOk st := ⟨hinv.1, le_trans (Nat.le_add_left 1 st.wordLen) hinv.2⟩
  have hfresh : (0 : Nat) + 1 ≤ 5 := by decide
  refine ⟨pushChar_undefined_iff st hinv, ?_, ?_, ?_, ?_, ?_, ?_, ?_, ?_, ?_, ⟨rfl, hfresh⟩,
    ⟨hinv.1, hok.2⟩, ?_, ?_, ?_, ?_, ⟨rfl, by decide⟩⟩
  · intro st1 h; exact pushChar_inv st st1 h hinv
  · intro i fuel st1 h; exact collectLoop_inv i fuel st st1 h hinv
  · intro fuel input st1 h; exact replaceLoop_inv fuel input st st1 h hinv
  · intro fuel st1 h
    have e := replaceLoop_inv _ _ _ _ h hinv
    exact ⟨e.2, replaceWord_terminator fuel st st1 h hinv⟩
  · intro fuel st2 h; exact replaceWord_ok fuel st st2 h hinv
  · intro i fuel h; exact collectLoop_undefined i fuel st h hinv
  · intro fuel input h; exact replaceLoop_undefined fuel input st h hinv
  · intro fuel h; exact replaceWord_undefined fuel st h hinv
  · intro i n lineLen fuel flow h; exact lineLoop_ok i n lineLen fuel st flow h hok
  · intro c; exact growStore_none_iff heapLimit line len capacity c hline hlen
  · intro c line1 capacity1 h
    exact growStore_some heapLimit line len capacity c line1 capacity1 h hline hlen
  · intro fuel input out rest h
    exact readLineLoop_terminator heapLimit fuel input line len capacity out rest h hline hlen
  · intro fuel input h
    exact readLineLoop_undefined heapLimit fuel input line len capacity h hline hlen

theorem stores_in_bounds_witness :
    (∀ st1, pushChar { initScan [] [] 0 [] with
          word := malloc 5, wordLen := 4, capacity := 5, ch := 97 } = Res.ok st1 →
      4 < st1.capacity ∧ st1.word[4]? = some 97 ∧ st1.wordLen = 4 + 1 ∧ WordInv st1) ∧
    (∀ c line1 capacity1, growStore 9 (malloc 5) 4 5 c = some (line1, capacity1) →
      4 < capacity1 ∧ 4 + 1 + 1 ≤ capacity1 ∧ line1.length = capacity1 ∧
        line1[4]? = some c) ∧
    pushChar { initScan [] [] 0 [] with word := malloc 5, wordLen := 4, capacity := 5, ch := 97 }
      = Res.ok { initScan [] [] 0 [] with
          word := [0, 0, 0, 0, 97, 0, 0, 0, 0, 0], wordLen := 5, capacity := 10, ch := 97 } :=
  ⟨(stores_in_bounds
      { initScan [] [] 0 [] with word := malloc 5, wordLen := 4, capacity := 5, ch := 97 }
      ⟨rfl, by decide⟩ (malloc 5) 9 4 5 rfl (by decide)).2.1,
    (stores_in_bounds
      { initScan [] [] 0 [] with word := malloc 5, wordLen := 4, capacity := 5, ch := 97 }
      ⟨rfl, by decide⟩ (malloc 5) 9 4 5 rfl (by decide)).2.2.2.2.2.2.2.2.2.2.2.2.2.1,
    rfl⟩

/-! ## The size requested by the add branch -/

/-- C21: the add branch requests `dictLineCount + sizeof(char *)` bytes, which is
at least `(dictLineCount + 1) * sizeof(char *)` only for an empty dictionary or
a pointer size of at most 1.  With one entry and pointers of 8 bytes it requests
9 bytes where 16 are needed for the entry stored at index 1. -/
theorem add_realloc_too_small :
    (∀ n sizeofCharPtr : Nat,
      (n + 1) * sizeofCharPtr ≤ addReallocSize n sizeofCharPtr ↔ (n = 0 ∨ sizeofCharPtr ≤ 1)) ∧
    addReallocSize 1 8 = 9 ∧ (1 + 1) * 8 = 16 ∧
    ¬ ((1 + 1) * 8 ≤ addReallocSize 1 8) ∧
    ¬ ((3 + 1) * 4 ≤ addReallocSize 3 4) := by
  refine ⟨?_, rfl, rfl, by decide, by decide⟩
  intro n s
  simp only [addReallocSize]
  constructor
  · intro h
    by_contra hc
    have hn : 1 ≤ n := by omega
    have hs : 2 ≤ s := by omega
    have h2 : n * 2 ≤ n * s := Nat.mul_le_mul_left n hs
    have h3 : (n + 1) * s = n * s + s := by ring
    omega
  · rintro (h | h)
    · subst h; omega
    · have hs : s = 0 ∨ s = 1 := by omega
      rcases hs with hs | hs <;> subst hs <;> omega

end SpellCheck
